import Mathlib

/-!
Shallow embedding of the gas_saver_eth transaction scheduler.

The Rust sources embedded here are:
  server/src/model.rs     (GasModel: bounded rolling fee window),
  server/src/limiter.rs   (RateLimiter: token bucket),
  src/nonce.rs            (NonceManager: per-sender nonce counters),
  server/src/events.rs    (event and decision types),
  server/src/scheduler.rs (Scheduler::re_evaluate_pending and the event loop).

Modelling conventions:
  - u64 quantities are naturals; where the Rust code can wrap (release-mode
    arithmetic, AtomicU64::fetch_add), the wrap is explicit via mod 2^64.
  - Instants are nanosecond counts (Nat); Instant subtraction saturates at 0
    exactly as Nat subtraction does.
  - The two f64 comparisons of the scheduler (volatility > spike_threshold,
    trend < -1.0) are passed in as Booleans: every claim treated here is
    conditional on their outcome, never on the floating-point computation.
  - Single-threaded execution: every compare_exchange in the source succeeds,
    so atomics become plain state passing.
-/

/-- Modulus of the 64-bit machine integers used throughout the code. -/
def U64MOD : Nat := 2 ^ 64

/-- Wrapping u64 addition. -/
def wadd (a b : Nat) : Nat := (a + b) % U64MOD

/-- Wrapping u64 multiplication. -/
def wmul (a b : Nat) : Nat := (a * b) % U64MOD

/-- 20-byte sender/recipient addresses, modelled as naturals below 2^160. -/
abbrev Addr : Type := Fin (2 ^ 160)

/-- Address 0, used as a concrete sample point. -/
def addr0 : Addr := ⟨0, by norm_num⟩

/-- Address 1, a second concrete sample point. -/
def addr1 : Addr := ⟨1, by norm_num⟩

/-- Rolling window of recently observed base fees (server/src/model.rs).
The VecDeque is a list whose head is the oldest sample and whose last
element is the tail (the newest sample). -/
structure GasModel where
  history : List Nat
  max_history : Nat
deriving Repr, DecidableEq

/-- Constructor `GasModel::new`: empty window of the given capacity. -/
def GasModel.new (max_history : Nat) : GasModel :=
  { history := [], max_history := max_history }

/-- Method `GasModel::update`: when `history.len() >= max_history` pop the
oldest sample, then push the new fee at the tail. -/
def GasModel.update (g : GasModel) (base_fee : Nat) : GasModel :=
  let h := if g.max_history ≤ g.history.length then g.history.tail else g.history
  { g with history := h ++ [base_fee] }

/-- Method `GasModel::current_fee`: value at the tail, 0 for an empty window. -/
def GasModel.current_fee (g : GasModel) : Nat :=
  g.history.getLast?.getD 0

/-- Iterated `update` over a list of observed fees, oldest first. -/
def GasModel.updates (g : GasModel) (fees : List Nat) : GasModel :=
  fees.foldl GasModel.update g

/-- Token bucket (server/src/limiter.rs). `last_refill` is an instant in
nanoseconds. -/
structure RateLimiter where
  tokens : Nat
  max_tokens : Nat
  refill_rate : Nat
  last_refill : Nat
deriving Repr, DecidableEq

/-- Constructor `RateLimiter::new`: the bucket starts full at `max`; the
initial `last_refill` sample is `Instant::now().elapsed()`, i.e. 0 ns. -/
def RateLimiter.new (rate mx : Nat) : RateLimiter :=
  { tokens := mx, max_tokens := mx, refill_rate := rate, last_refill := 0 }

/-- Method `RateLimiter::refill` at instant `now`: if strictly more than one
second elapsed since `last_refill`, credit `(elapsed_ns / 1e9) * rate` tokens
(u64 multiply, then u64 add, capped at `max_tokens`) and advance
`last_refill`. The `saturating_sub` of the source is Nat subtraction. -/
def RateLimiter.refill (r : RateLimiter) (now : Nat) : RateLimiter :=
  let elapsed_ns := now - r.last_refill
  if 1000000000 < elapsed_ns then
    let tokens_to_add := wmul (elapsed_ns / 1000000000) r.refill_rate
    if 0 < tokens_to_add then
      { r with last_refill := now,
               tokens := min (wadd r.tokens tokens_to_add) r.max_tokens }
    else r
  else r

/-- Method `RateLimiter::check_and_consume` at instant `now`: refill, then
take one token when available. Returns the success flag and the new state. -/
def RateLimiter.check_and_consume (r : RateLimiter) (now : Nat) : Bool × RateLimiter :=
  let r2 := r.refill now
  if r2.tokens = 0 then (false, r2)
  else (true, { r2 with tokens := r2.tokens - 1 })

/-- Sequence of `check_and_consume` calls at the given instants, collecting
the returned Booleans. -/
def RateLimiter.runCalls (r : RateLimiter) : List Nat → List Bool × RateLimiter
  | [] => ([], r)
  | now :: rest =>
    let p := r.check_and_consume now
    let q := p.2.runCalls rest
    (p.1 :: q.1, q.2)

/-- Per-sender nonce counters (src/nonce.rs). The DashMap is modelled as a
total function defaulting to 0: an absent key and a key holding 0 are
observationally identical for `next_nonce`, `peek_nonce` and `update_nonce`,
since `next_nonce` inserts 0 before the fetch-add when the key is absent. -/
structure NonceManager where
  nonces : Addr → Nat

/-- Constructor `NonceManager::new`: empty map. -/
def NonceManager.new : NonceManager := { nonces := fun _ => 0 }

/-- Method `NonceManager::next_nonce`: `entry(addr).or_insert(0)` then
`fetch_add(1)` — returns the current counter and stores its wrapping
successor (AtomicU64::fetch_add wraps at 2^64). -/
def NonceManager.next_nonce (m : NonceManager) (address : Addr) : Nat × NonceManager :=
  (m.nonces address,
   { nonces := fun a => if a = address then wadd (m.nonces address) 1 else m.nonces a })

/-- Method `NonceManager::peek_nonce`: current counter, 0 when unseen. -/
def NonceManager.peek_nonce (m : NonceManager) (address : Addr) : Nat :=
  m.nonces address

/-- Method `NonceManager::update_nonce`: store the externally supplied u64
absolutely (the argument is reduced mod 2^64, the range of a u64). -/
def NonceManager.update_nonce (m : NonceManager) (address : Addr) (new_nonce : Nat) : NonceManager :=
  { nonces := fun a => if a = address then new_nonce % U64MOD else m.nonces a }

/-- User transaction intent (server/src/events.rs). `data` and `value` are
carried opaquely; `value` is a 32-byte big-endian 256-bit integer. -/
structure TransactionRequest where
  id : Nat
  «from» : Addr
  «to» : Addr
  data : List Nat
  value : List Nat
  max_fee_per_gas : Nat
  max_priority_fee_per_gas : Nat
  deadline : Option Nat
deriving Repr, DecidableEq

/-- Outbound decisions (server/src/events.rs). -/
inductive SchedulerDecision where
  | Submit (tx_id nonce gas_price : Nat)
  | Defer (tx_id : Nat) (reason : String)
  | Reprice (tx_id old_nonce new_gas_price : Nat)
  | Drop (tx_id : Nat) (reason : String)
deriving Repr, DecidableEq

/-- Internal record of a submitted transaction (server/src/scheduler.rs). -/
structure SubmittedTx where
  req : TransactionRequest
  nonce : Nat
  last_gas_price : Nat
  last_action_at : Nat
deriving Repr, DecidableEq

/-- Scheduler configuration (server/src/scheduler.rs). `spike_threshold` is
an f64 compared only against the model volatility; that comparison enters the
pass as the Boolean `is_spike`, so the threshold itself is not carried. -/
structure SchedulerConfig where
  target_base_fee : Nat
  max_priority_fee : Nat
  reprice_cooldown : Nat
deriving Repr, DecidableEq

/-- One iteration of the Phase-1 repricing loop of
`Scheduler::re_evaluate_pending`, acting on a single submitted entry:
skip while the cooldown has not elapsed; otherwise emit a Reprice and bump
the record exactly when the desired price clears the 10% floor and fits
under the user cap. `last_gas_price * 110` and
`current_fee + max_priority_fee_per_gas` are u64 operations. -/
def repriceStep (cfg : SchedulerConfig) (current_fee now : Nat) (tx : SubmittedTx) :
    Option SchedulerDecision × SubmittedTx :=
  if now - tx.last_action_at < cfg.reprice_cooldown then (none, tx)
  else
    let min_new_price := wmul tx.last_gas_price 110 / 100
    let desired_price := wadd current_fee tx.req.max_priority_fee_per_gas
    if min_new_price < desired_price ∧ desired_price ≤ tx.req.max_fee_per_gas then
      (some (SchedulerDecision.Reprice tx.req.id tx.nonce desired_price),
       { tx with last_gas_price := desired_price, last_action_at := now })
    else (none, tx)

/-- Phase 1 of `Scheduler::re_evaluate_pending`: reprice every submitted
entry. The source iterates `HashMap::values_mut` in unspecified order; the
list order stands for one admissible iteration order, and every property
proved below is order-insensitive. -/
def phase1 (cfg : SchedulerConfig) (current_fee now : Nat) :
    List SubmittedTx → List SchedulerDecision × List SubmittedTx
  | [] => ([], [])
  | tx :: rest =>
    let p := repriceStep cfg current_fee now tx
    let q := phase1 cfg current_fee now rest
    (p.1.toList ++ q.1, p.2 :: q.2)

/-- Insertion into the submitted map, with `HashMap::insert` semantics:
replace the entry holding the same key, append otherwise. -/
def insertSubmitted (s : SubmittedTx) : List SubmittedTx → List SubmittedTx
  | [] => [s]
  | t :: ts => if t.req.id = s.req.id then s :: ts else t :: insertSubmitted s ts

/-- Result of Phase 2: the retained pending entries in order, the final
limiter / nonce-manager / submitted-map states, the emitted decisions in
order, and the trace of `check_and_consume` results. -/
structure Phase2Result where
  pending : List TransactionRequest
  limiter : RateLimiter
  nonces : NonceManager
  submitted : List SubmittedTx
  decisions : List SchedulerDecision
  checks : List Bool

/-- Phase 2 of `Scheduler::re_evaluate_pending` over the already-sorted
pending list: for each entry, first call `check_and_consume` (a `false`
breaks the loop, retaining this and all later entries); then in spike mode
submit unconditionally at `current_fee + tip`, in normal mode submit only
when `current_fee ≤ max_fee_per_gas`, and otherwise leave the entry pending
(silently deferring when the trend is below -1.0). A submitted entry is
inserted into the submitted map and removed from pending; the source's
deferred reverse-order removal of `to_remove` indices has exactly this
effect. -/
def phase2 (current_fee : Nat) (is_spike trend_down : Bool) (now : Nat) :
    List TransactionRequest → RateLimiter → NonceManager → List SubmittedTx → Phase2Result
  | [], lim, nm, sub => ⟨[], lim, nm, sub, [], []⟩
  | tx :: rest, lim, nm, sub =>
    let c := lim.check_and_consume now
    if c.1 = false then ⟨tx :: rest, c.2, nm, sub, [], [false]⟩
    else if is_spike then
      let gas_price := wadd current_fee tx.max_priority_fee_per_gas
      let np := nm.next_nonce tx.«from»
      let sub2 := insertSubmitted ⟨tx, np.1, gas_price, now⟩ sub
      let r := phase2 current_fee is_spike trend_down now rest c.2 np.2 sub2
      ⟨r.pending, r.limiter, r.nonces, r.submitted,
       SchedulerDecision.Submit tx.id np.1 gas_price :: r.decisions, true :: r.checks⟩
    else if current_fee ≤ tx.max_fee_per_gas then
      let gas_price := wadd current_fee tx.max_priority_fee_per_gas
      let np := nm.next_nonce tx.«from»
      let sub2 := insertSubmitted ⟨tx, np.1, gas_price, now⟩ sub
      let r := phase2 current_fee is_spike trend_down now rest c.2 np.2 sub2
      ⟨r.pending, r.limiter, r.nonces, r.submitted,
       SchedulerDecision.Submit tx.id np.1 gas_price :: r.decisions, true :: r.checks⟩
    else if trend_down then
      let r := phase2 current_fee is_spike trend_down now rest c.2 nm sub
      ⟨tx :: r.pending, r.limiter, r.nonces, r.submitted, r.decisions, true :: r.checks⟩
    else
      let r := phase2 current_fee is_spike trend_down now rest c.2 nm sub
      ⟨tx :: r.pending, r.limiter, r.nonces, r.submitted, r.decisions, true :: r.checks⟩

/-- Ascending order on requests by id, the key of the source's
`pending_txs.sort_by_key(|t| t.id)`. -/
def byId (a b : TransactionRequest) : Prop := a.id ≤ b.id

instance : DecidableRel byId := fun a b => Nat.decLe a.id b.id

instance : IsTotal TransactionRequest byId := ⟨fun a b => Nat.le_total a.id b.id⟩

instance : IsTrans TransactionRequest byId := ⟨fun _ _ _ h1 h2 => Nat.le_trans h1 h2⟩

/-- Stable ascending sort of the pending list by id (`sort_by_key` is a
stable sort). -/
def sortPending (l : List TransactionRequest) : List TransactionRequest :=
  List.insertionSort byId l

/-- Full scheduler-owned state. -/
structure SchedulerState where
  pending : List TransactionRequest
  submitted : List SubmittedTx
  limiter : RateLimiter
  nonces : NonceManager
  model : GasModel

/-- Method `Scheduler::re_evaluate_pending` at instant `now`, with the two
f64 comparisons (`volatility > spike_threshold`, `trend < -1.0`) supplied
as `is_spike` and `trend_down`: compute the fee snapshot, run Phase 1 over
the submitted set, sort pending by id, run Phase 2. -/
def re_evaluate (cfg : SchedulerConfig) (is_spike trend_down : Bool) (now : Nat)
    (st : SchedulerState) : SchedulerState × List SchedulerDecision :=
  let current_fee := st.model.current_fee
  let p1 := phase1 cfg current_fee now st.submitted
  let r := phase2 current_fee is_spike trend_down now (sortPending st.pending)
             st.limiter st.nonces p1.2
  (⟨r.pending, r.submitted, r.limiter, r.nonces, st.model⟩, p1.1 ++ r.decisions)

/-- Events driving the loop in `Scheduler::run`. `GasBaseFee` covers both
`BaseFeeUpdate` and `NewBlock` (identical handling); `GasOther` covers
`TxConfirmed` (only logged) and `MempoolTx` (ignored). Each state-changing
event carries its instant and the two f64 comparison outcomes of the pass
it triggers. -/
inductive SchedEvent where
  | GasBaseFee (base_fee : Nat) (is_spike trend_down : Bool) (now : Nat)
  | GasOther
  | TxRequest (req : TransactionRequest) (is_spike trend_down : Bool) (now : Nat)

/-- Handler dispatch of `Scheduler::run`: a base-fee event updates the model
then re-evaluates; a request is appended to pending then re-evaluates;
other gas events change nothing and emit nothing. -/
def handleEvent (cfg : SchedulerConfig) (st : SchedulerState) :
    SchedEvent → SchedulerState × List SchedulerDecision
  | SchedEvent.GasBaseFee fee sp td now =>
    re_evaluate cfg sp td now { st with model := st.model.update fee }
  | SchedEvent.GasOther => (st, [])
  | SchedEvent.TxRequest req sp td now =>
    re_evaluate cfg sp td now { st with pending := st.pending ++ [req] }

/-- The scheduler loop: process the events in arrival order, concatenating
the emitted decision stream. -/
def runScheduler (cfg : SchedulerConfig) (st : SchedulerState) :
    List SchedEvent → SchedulerState × List SchedulerDecision
  | [] => (st, [])
  | e :: es =>
    let p := handleEvent cfg st e
    let q := runScheduler cfg p.1 es
    (q.1, p.2 ++ q.2)

/-- Initial scheduler state as built in main: empty pending and submitted
sets, fresh model, nonce map and limiter. -/
def initState (max_history rate mx : Nat) : SchedulerState :=
  ⟨[], [], RateLimiter.new rate mx, NonceManager.new, GasModel.new max_history⟩

/-- Pairs (tx_id, nonce) of the Submit decisions of a stream, in order. -/
def submitPairs : List SchedulerDecision → List (Nat × Nat)
  | [] => []
  | SchedulerDecision.Submit i n _ :: ds => (i, n) :: submitPairs ds
  | _ :: ds => submitPairs ds

/-- Ids of the Submit decisions of a stream, in order. -/
def submitIds (ds : List SchedulerDecision) : List Nat :=
  (submitPairs ds).map Prod.fst

/-- Number of Submit decisions in a stream. -/
def countSubmits (ds : List SchedulerDecision) : Nat :=
  (submitPairs ds).length

/-- Test for a Submit decision carrying the given tx id. -/
def isSubmitFor (i : Nat) : SchedulerDecision → Bool
  | SchedulerDecision.Submit j _ _ => j == i
  | _ => false

/-- Well-formedness of a decision stream relative to the set `subs` of
(id, nonce) pairs already submitted: a Submit must use a fresh id and
records its pair; a Reprice must cite a previously recorded pair (same id
and the very nonce assigned at its Submit). -/
def wfNonce (subs : List (Nat × Nat)) : List SchedulerDecision → Bool
  | [] => true
  | SchedulerDecision.Submit i n _ :: ds =>
    decide (∀ p ∈ subs, p.1 ≠ i) && wfNonce ((i, n) :: subs) ds
  | SchedulerDecision.Reprice i n _ :: ds =>
    decide ((i, n) ∈ subs) && wfNonce subs ds
  | _ :: ds => wfNonce subs ds

/-- Ids of the transaction requests arriving in an event list, in order. -/
def eventReqIds : List SchedEvent → List Nat
  | [] => []
  | SchedEvent.TxRequest req _ _ _ :: es => req.id :: eventReqIds es
  | _ :: es => eventReqIds es

/-- Ids of the entries of a submitted map. -/
def subIds (sub : List SubmittedTx) : List Nat :=
  sub.map (fun s => s.req.id)

/-- Pairs (id, nonce) of the entries of a submitted map. -/
def subPairs (sub : List SubmittedTx) : List (Nat × Nat) :=
  sub.map (fun s => (s.req.id, s.nonce))

/-- Ids of the whole scheduler state, pending then submitted. -/
def SchedulerState.allIds (st : SchedulerState) : List Nat :=
  st.pending.map TransactionRequest.id ++ subIds st.submitted

/-- Sample request: id 1, cap 100, tip 2 (spec scenario 1). -/
def txA : TransactionRequest := ⟨1, addr0, addr1, [], [], 100, 2, none⟩

/-- Sample request whose cap 50 sits below a current fee of 100. -/
def txLowCap : TransactionRequest := ⟨1, addr0, addr1, [], [], 50, 0, none⟩

/-- Sample configuration: target 50, tip bound 5, cooldown 1000 ns. -/
def cfgA : SchedulerConfig := ⟨50, 5, 1000⟩

/-- Refill is the identity when the refill rate is 0. -/
theorem RateLimiter.refill_rate_zero (r : RateLimiter) (now : Nat)
    (h : r.refill_rate = 0) : r.refill now = r := by
  simp [RateLimiter.refill, wmul, h]

/-- Unfolding equation for a `runCalls` step. -/
theorem RateLimiter.runCalls_cons (r : RateLimiter) (now : Nat) (rest : List Nat) :
    r.runCalls (now :: rest) =
      ((r.check_and_consume now).1 :: ((r.check_and_consume now).2.runCalls rest).1,
       ((r.check_and_consume now).2.runCalls rest).2) := rfl

/-- Value of `check_and_consume` on an empty post-refill bucket. -/
theorem RateLimiter.check_zero (r : RateLimiter) (now : Nat)
    (h : (r.refill now).tokens = 0) :
    r.check_and_consume now = (false, r.refill now) := by
  simp [RateLimiter.check_and_consume, h]

/-- Value of `check_and_consume` on a non-empty post-refill bucket. -/
theorem RateLimiter.check_pos (r : RateLimiter) (now : Nat)
    (h : (r.refill now).tokens ≠ 0) :
    r.check_and_consume now =
      (true, ⟨(r.refill now).tokens - 1, (r.refill now).max_tokens,
              (r.refill now).refill_rate, (r.refill now).last_refill⟩) := by
  simp [RateLimiter.check_and_consume, h]

/-- Refill keeps a zero-capacity bucket empty and preserves the static
fields. -/
theorem RateLimiter.refill_max_zero (r : RateLimiter) (now : Nat)
    (h1 : r.max_tokens = 0) (h2 : r.tokens = 0) :
    (r.refill now).tokens = 0 ∧ (r.refill now).max_tokens = 0 := by
  simp only [RateLimiter.refill]
  split
  · split
    · simp [h1]
    · exact ⟨h2, h1⟩
  · exact ⟨h2, h1⟩

/-- A zero-capacity bucket answers false forever. -/
theorem RateLimiter.runCalls_max_zero (nows : List Nat) :
    ∀ r : RateLimiter, r.max_tokens = 0 → r.tokens = 0 →
      ∀ b ∈ (r.runCalls nows).1, b = false := by
  induction nows with
  | nil => intro r _ _ b hb; simp [RateLimiter.runCalls] at hb
  | cons now rest ih =>
    intro r h1 h2 b hb
    obtain ⟨ht, hm⟩ := r.refill_max_zero now h1 h2
    rw [RateLimiter.runCalls_cons, r.check_zero now ht] at hb
    simp only [List.mem_cons] at hb
    rcases hb with hb | hb
    · exact hb
    · exact ih (r.refill now) hm ht b hb

/-- With refill rate 0 the number of granted tokens over any call sequence
is bounded by the tokens initially present. -/
theorem RateLimiter.runCalls_rate_zero (nows : List Nat) :
    ∀ r : RateLimiter, r.refill_rate = 0 →
      (r.runCalls nows).1.count true ≤ r.tokens := by
  induction nows with
  | nil => intro r _; simp [RateLimiter.runCalls]
  | cons now rest ih =>
    intro r h
    have hid : r.refill now = r := r.refill_rate_zero now h
    by_cases hz : r.tokens = 0
    · have hz2 : (r.refill now).tokens = 0 := by rw [hid]; exact hz
      rw [RateLimiter.runCalls_cons, r.check_zero now hz2, hid,
        List.count_cons_of_ne (by simp)]
      exact ih r h
    · have hz2 : (r.refill now).tokens ≠ 0 := by rw [hid]; exact hz
      rw [RateLimiter.runCalls_cons, r.check_pos now hz2, hid,
        List.count_cons_self]
      have hle := ih (⟨r.tokens - 1, r.max_tokens, r.refill_rate, r.last_refill⟩ :
        RateLimiter) h
      dsimp only at hle ⊢
      omega

/-- C4, corrected. The claim held only for `max == 0`: a zero-capacity
bucket answers false on every call; with `rate == 0` but `max > 0` the
bucket starts full, so it is not disabled from the start — instead it never
refills, and the number of true answers over any call sequence is bounded
by `max`. -/
theorem limiter_disabled (rate mx : Nat) (nows : List Nat) :
    (mx = 0 → ∀ b ∈ ((RateLimiter.new rate mx).runCalls nows).1, b = false) ∧
    (rate = 0 → ((RateLimiter.new rate mx).runCalls nows).1.count true ≤ mx) := by
  constructor
  · intro h
    exact RateLimiter.runCalls_max_zero nows (RateLimiter.new rate mx) h h
  · intro h
    subst h
    exact RateLimiter.runCalls_rate_zero nows (RateLimiter.new 0 mx) rfl

/-- Witness for `limiter_disabled` at rate 5 / max 0 and rate 0 / max 3. -/
theorem limiter_disabled_witness :
    (∀ b ∈ ((RateLimiter.new 5 0).runCalls [0, 2000000000]).1, b = false) ∧
    ((RateLimiter.new 0 3).runCalls [0, 1, 2, 3]).1.count true ≤ 3 :=
  ⟨(limiter_disabled 5 0 [0, 2000000000]).1 rfl,
   (limiter_disabled 0 3 [0, 1, 2, 3]).2 rfl⟩

/-- Counterexample to C4 as stated: with `rate == 0` and `max == 1` the
very first `check_and_consume` returns true, so the bucket is not disabled
from the start. -/
theorem limiter_disabled_cex :
    ((RateLimiter.new 0 1).check_and_consume 0).1 = true := by decide

/-- An update leaves the capacity untouched. -/
theorem GasModel.update_max_history (g : GasModel) (f : Nat) :
    (g.update f).max_history = g.max_history := rfl

/-- After an update the current fee is the freshly inserted sample. -/
theorem GasModel.current_fee_update (g : GasModel) (f : Nat) :
    (g.update f).current_fee = f := by
  simp [GasModel.update, GasModel.current_fee]

/-- One update preserves the bound `length ≤ max max_history 1`. -/
theorem GasModel.update_length_le (g : GasModel) (f : Nat)
    (h : g.history.length ≤ max g.max_history 1) :
    (g.update f).history.length ≤ max g.max_history 1 := by
  simp only [GasModel.update]
  split
  · rw [List.length_append, List.length_tail]
    simp only [List.length_singleton]
    omega
  · rw [List.length_append]
    simp only [List.length_singleton]
    omega

/-- One update preserves the bound `length ≤ max_history` when the capacity
is at least 1. -/
theorem GasModel.update_length_le_cap (g : GasModel) (f : Nat)
    (hm : 1 ≤ g.max_history) (h : g.history.length ≤ g.max_history) :
    (g.update f).history.length ≤ g.max_history := by
  simp only [GasModel.update]
  split
  · rw [List.length_append, List.length_tail]
    simp only [List.length_singleton]
    omega
  · rw [List.length_append]
    simp only [List.length_singleton]
    omega

/-- Iterated updates preserve the capacity and the window bound. -/
theorem GasModel.updates_length (fees : List Nat) :
    ∀ g : GasModel, g.history.length ≤ max g.max_history 1 →
      ((g.updates fees).history.length ≤ max g.max_history 1 ∧
       (g.updates fees).max_history = g.max_history) := by
  induction fees with
  | nil => intro g h; exact ⟨h, rfl⟩
  | cons f fs ih =>
    intro g h
    have step := ih (g.update f) (g.update_length_le f h)
    exact ⟨step.1, step.2⟩

/-- Iterated updates preserve `length ≤ max_history` for capacity ≥ 1. -/
theorem GasModel.updates_length_cap (fees : List Nat) :
    ∀ g : GasModel, 1 ≤ g.max_history → g.history.length ≤ g.max_history →
      (g.updates fees).history.length ≤ g.max_history := by
  induction fees with
  | nil => intro g _ h; exact h
  | cons f fs ih =>
    intro g hm h
    exact ih (g.update f) hm (g.update_length_le_cap f hm h)

/-- The current fee after a sequence of updates is the last inserted sample,
falling back to the prior current fee for an empty sequence. -/
theorem GasModel.current_fee_updates (fees : List Nat) :
    ∀ g : GasModel, (g.updates fees).current_fee = fees.getLast?.getD g.current_fee := by
  induction fees with
  | nil => intro g; rfl
  | cons f fs ih =>
    intro g
    have step : (g.updates (f :: fs)).current_fee =
        fs.getLast?.getD (g.update f).current_fee := ih (g.update f)
    rw [step, g.current_fee_update f]
    cases fs with
    | nil => rfl
    | cons b bs =>
      rw [List.getLast?_cons_cons]
      have hs : (b :: bs).getLast?.isSome := by
        rw [List.getLast?_isSome]
        simp
      obtain ⟨x, hx⟩ := Option.isSome_iff_exists.mp hs
      rw [hx]
      rfl

/-- C5, corrected. The window bound fails at capacity 0: one update then
yields a window of size 1 > 0. For every `max_history ≥ 1` the bound holds
as claimed, the general bound is `max max_history 1`, and `current_fee`
always returns the most recently inserted sample (0 when no sample was
ever inserted). -/
theorem model_window_bound (m : Nat) (fees : List Nat) :
    ((GasModel.new m).updates fees).history.length ≤ max m 1 ∧
    (1 ≤ m → ((GasModel.new m).updates fees).history.length ≤ m) ∧
    ((GasModel.new m).updates fees).current_fee = fees.getLast?.getD 0 := by
  refine ⟨?_, ?_, ?_⟩
  · exact (GasModel.updates_length fees (GasModel.new m) (by simp [GasModel.new])).1
  · intro hm
    exact GasModel.updates_length_cap fees (GasModel.new m) hm (by simp [GasModel.new])
  · exact GasModel.current_fee_updates fees (GasModel.new m)

/-- Witness for `model_window_bound` at capacity 3 with four updates. -/
theorem model_window_bound_witness :
    ((GasModel.new 3).updates [1, 2, 7, 10]).history.length ≤ max 3 1 ∧
    ((GasModel.new 3).updates [1, 2, 7, 10]).history.length ≤ 3 ∧
    ((GasModel.new 3).updates [1, 2, 7, 10]).current_fee =
      ([1, 2, 7, 10] : List Nat).getLast?.getD 0 :=
  ⟨(model_window_bound 3 [1, 2, 7, 10]).1,
   (model_window_bound 3 [1, 2, 7, 10]).2.1 (by norm_num),
   (model_window_bound 3 [1, 2, 7, 10]).2.2⟩

/-- Counterexample to C5 as stated: with `max_history = 0` a single update
produces a window of size 1, exceeding `max_history`. -/
theorem model_window_bound_cex :
    ((GasModel.new 0).update 5).history.length = 1 ∧
    ¬ ((GasModel.new 0).update 5).history.length ≤ 0 := by decide

/-- C8, corrected. `next_nonce` returns the current counter and stores its
successor, and an unseen sender gets 0 leaving 1; but the AtomicU64 counter
wraps, so the stored successor is `(v + 1) mod 2^64` and two successive
calls are strictly increasing consecutive values only while the counter has
not reached `2^64 - 1`; `update_nonce(addr, n)` makes the following
`next_nonce(addr)` return `n` for every u64 value `n` (i.e. `n < 2^64`). -/
theorem nonce_allocator_behavior (m : NonceManager) (a : Addr) (n : Nat) :
    (m.next_nonce a).1 = m.nonces a ∧
    ((m.next_nonce a).2).nonces a = wadd (m.nonces a) 1 ∧
    (NonceManager.new.next_nonce a).1 = 0 ∧
    ((NonceManager.new.next_nonce a).2).nonces a = 1 ∧
    (n < U64MOD → ((m.update_nonce a n).next_nonce a).1 = n) ∧
    (m.nonces a + 1 < U64MOD →
      ((m.next_nonce a).2.next_nonce a).1 = (m.next_nonce a).1 + 1 ∧
      (m.next_nonce a).1 < ((m.next_nonce a).2.next_nonce a).1) := by
  refine ⟨rfl, by simp [NonceManager.next_nonce], rfl, ?_, ?_, ?_⟩
  · simp [NonceManager.next_nonce, NonceManager.new, wadd, U64MOD]
  · intro hn
    simp [NonceManager.next_nonce, NonceManager.update_nonce, Nat.mod_eq_of_lt hn]
  · intro hlt
    have h2 : ((m.next_nonce a).2.next_nonce a).1 = (m.next_nonce a).1 + 1 := by
      simp [NonceManager.next_nonce, wadd, Nat.mod_eq_of_lt hlt]
    exact ⟨h2, by omega⟩

/-- Witness for `nonce_allocator_behavior` on a fresh manager at address 0
with override value 7. -/
theorem nonce_allocator_behavior_witness :
    (NonceManager.new.next_nonce addr0).1 = NonceManager.new.nonces addr0 ∧
    ((NonceManager.new.next_nonce addr0).2).nonces addr0 =
      wadd (NonceManager.new.nonces addr0) 1 ∧
    (NonceManager.new.next_nonce addr0).1 = 0 ∧
    ((NonceManager.new.next_nonce addr0).2).nonces addr0 = 1 ∧
    ((NonceManager.new.update_nonce addr0 7).next_nonce addr0).1 = 7 ∧
    ((NonceManager.new.next_nonce addr0).2.next_nonce addr0).1 =
      (NonceManager.new.next_nonce addr0).1 + 1 ∧
    (NonceManager.new.next_nonce addr0).1 <
      ((NonceManager.new.next_nonce addr0).2.next_nonce addr0).1 := by
  obtain ⟨h1, h2, h3, h4, h5, h6⟩ := nonce_allocator_behavior NonceManager.new addr0 7
  have hn : (7 : Nat) < U64MOD := by norm_num [U64MOD]
  have hc : NonceManager.new.nonces addr0 + 1 < U64MOD := by
    norm_num [NonceManager.new, U64MOD]
  exact ⟨h1, h2, h3, h4, h5 hn, (h6 hc).1, (h6 hc).2⟩

/-- Counterexample to C8 as stated: after `update_nonce(addr, 2^64 - 1)` two
successive `next_nonce` calls return `2^64 - 1` and then 0 — the wrapped
counter breaks strict monotonicity. -/
theorem nonce_allocator_cex :
    ((NonceManager.new.update_nonce addr0 (2 ^ 64 - 1)).next_nonce addr0).1 = 2 ^ 64 - 1 ∧
    (((NonceManager.new.update_nonce addr0 (2 ^ 64 - 1)).next_nonce addr0).2.next_nonce
      addr0).1 = 0 ∧
    ¬ ((NonceManager.new.update_nonce addr0 (2 ^ 64 - 1)).next_nonce addr0).1 <
      (((NonceManager.new.update_nonce addr0 (2 ^ 64 - 1)).next_nonce addr0).2.next_nonce
        addr0).1 := by
  have e1 : ((NonceManager.new.update_nonce addr0 (2 ^ 64 - 1)).next_nonce addr0).1 =
      2 ^ 64 - 1 := by
    simp [NonceManager.next_nonce, NonceManager.update_nonce, U64MOD]
  have e2 : (((NonceManager.new.update_nonce addr0 (2 ^ 64 - 1)).next_nonce addr0).2.next_nonce
      addr0).1 = 0 := by
    simp [NonceManager.next_nonce, NonceManager.update_nonce, wadd, U64MOD]
  refine ⟨e1, e2, ?_⟩
  rw [e1, e2]
  omega

/-- C9, corrected for the overflow bound. Whenever the repricing inputs stay
below the u64 overflow thresholds — `last_gas_price * 110 < 2^64` and
`current_fee + max_priority_fee_per_gas < 2^64` — the scheduler arithmetic
`(last_gas_price * 110) / 100` and `current_fee + max_priority_fee_per_gas`
coincides with exact integer arithmetic, i.e. no u64 overflow occurs. -/
theorem scheduler_arith_no_overflow (lgp cf tip : Nat)
    (h1 : lgp * 110 < U64MOD) (h2 : cf + tip < U64MOD) :
    wmul lgp 110 / 100 = lgp * 110 / 100 ∧ wadd cf tip = cf + tip := by
  unfold wmul wadd
  rw [Nat.mod_eq_of_lt h1, Nat.mod_eq_of_lt h2]
  exact ⟨rfl, rfl⟩

/-- Witness for `scheduler_arith_no_overflow` at the spec scenario values
(last price 52, fee 70, tip 2). -/
theorem scheduler_arith_no_overflow_witness :
    wmul 52 110 / 100 = 52 * 110 / 100 ∧ wadd 70 2 = 70 + 2 :=
  scheduler_arith_no_overflow 52 70 2 (by norm_num [U64MOD]) (by norm_num [U64MOD])

/-- Counterexample to C9 as stated: at `last_gas_price = 2^60` the u64
product `last_gas_price * 110` wraps, so the computed bump floor differs
from the exact value, and at `current_fee = 2^64 - 1`, `tip = 1` the u64 sum
wraps to 0. -/
theorem scheduler_arith_cex :
    wmul (2 ^ 60) 110 / 100 ≠ 2 ^ 60 * 110 / 100 ∧
    wadd (2 ^ 64 - 1) 1 ≠ (2 ^ 64 - 1) + 1 := by
  constructor
  · norm_num [wmul, U64MOD]
  · norm_num [wadd, U64MOD]

/-- Branch-explicit form of `repriceStep`. -/
theorem repriceStep_eq (cfg : SchedulerConfig) (current_fee now : Nat) (tx : SubmittedTx) :
    repriceStep cfg current_fee now tx =
      if now - tx.last_action_at < cfg.reprice_cooldown then (none, tx)
      else if wmul tx.last_gas_price 110 / 100 <
                wadd current_fee tx.req.max_priority_fee_per_gas ∧
              wadd current_fee tx.req.max_priority_fee_per_gas ≤ tx.req.max_fee_per_gas then
        (some (SchedulerDecision.Reprice tx.req.id tx.nonce
           (wadd current_fee tx.req.max_priority_fee_per_gas)),
         { tx with last_gas_price := wadd current_fee tx.req.max_priority_fee_per_gas,
                   last_action_at := now })
      else (none, tx) := rfl

/-- Phase 1 emits exactly the decisions of the per-entry reprice step. -/
theorem phase1_decisions_eq (cfg : SchedulerConfig) (current_fee now : Nat)
    (sub : List SubmittedTx) :
    (phase1 cfg current_fee now sub).1 =
      sub.filterMap (fun t => (repriceStep cfg current_fee now t).1) := by
  induction sub with
  | nil => rfl
  | cons t ts ih =>
    simp only [phase1, List.filterMap_cons]
    cases h : (repriceStep cfg current_fee now t).1 <;> simp [h, ih]

/-- Phase 1 maps the per-entry reprice step over the submitted entries. -/
theorem phase1_states_eq (cfg : SchedulerConfig) (current_fee now : Nat)
    (sub : List SubmittedTx) :
    (phase1 cfg current_fee now sub).2 =
      sub.map (fun t => (repriceStep cfg current_fee now t).2) := by
  induction sub with
  | nil => rfl
  | cons t ts ih => simp [phase1, ih]

/-- A reprice step never emits anything but a Reprice of its own entry at
the desired price. -/
theorem repriceStep_some (cfg : SchedulerConfig) (current_fee now : Nat)
    (tx : SubmittedTx) (d : SchedulerDecision)
    (h : (repriceStep cfg current_fee now tx).1 = some d) :
    d = SchedulerDecision.Reprice tx.req.id tx.nonce
          (wadd current_fee tx.req.max_priority_fee_per_gas) := by
  rw [repriceStep_eq] at h
  split at h
  · simp at h
  · split at h
    · simp only [Option.some.injEq] at h
      exact h.symm
    · simp at h

/-- Every Phase-1 decision is a Reprice citing the id, the nonce and the
desired price of some submitted entry. -/
theorem phase1_mem_decisions (cfg : SchedulerConfig) (current_fee now : Nat)
    (sub : List SubmittedTx) (d : SchedulerDecision)
    (hd : d ∈ (phase1 cfg current_fee now sub).1) :
    ∃ s ∈ sub, d = SchedulerDecision.Reprice s.req.id s.nonce
      (wadd current_fee s.req.max_priority_fee_per_gas) := by
  rw [phase1_decisions_eq] at hd
  obtain ⟨s, hs, hsd⟩ := List.mem_filterMap.mp hd
  exact ⟨s, hs, repriceStep_some cfg current_fee now s d hsd⟩

/-- C3, confirmed. In Phase 1, for a submitted entry whose cooldown has
elapsed, a `Reprice{tx_id, old_nonce = nonce, new_gas_price = desired}` with
`desired = current_fee + max_priority_fee_per_gas` (u64 addition) is
emitted if and only if `desired` strictly exceeds the floor
`(last_gas_price * 110) / 100` (u64 multiplication) and is at most
`max_fee_per_gas`; on emission `last_gas_price` becomes `desired` and
`last_action_at` becomes `now`, and otherwise the entry is returned
entirely unchanged. The first two conjuncts tie the per-entry step to the
whole Phase-1 pass. -/
theorem reprice_characterization (cfg : SchedulerConfig) (current_fee now : Nat)
    (sub : List SubmittedTx) (tx : SubmittedTx) :
    (phase1 cfg current_fee now sub).1 =
      sub.filterMap (fun t => (repriceStep cfg current_fee now t).1) ∧
    (phase1 cfg current_fee now sub).2 =
      sub.map (fun t => (repriceStep cfg current_fee now t).2) ∧
    (now - tx.last_action_at < cfg.reprice_cooldown →
      repriceStep cfg current_fee now tx = (none, tx)) ∧
    (cfg.reprice_cooldown ≤ now - tx.last_action_at →
      ((wmul tx.last_gas_price 110 / 100 <
          wadd current_fee tx.req.max_priority_fee_per_gas ∧
        wadd current_fee tx.req.max_priority_fee_per_gas ≤ tx.req.max_fee_per_gas) ↔
          repriceStep cfg current_fee now tx =
            (some (SchedulerDecision.Reprice tx.req.id tx.nonce
               (wadd current_fee tx.req.max_priority_fee_per_gas)),
             { tx with
                 last_gas_price := wadd current_fee tx.req.max_priority_fee_per_gas,
                 last_action_at := now })) ∧
      (¬ (wmul tx.last_gas_price 110 / 100 <
            wadd current_fee tx.req.max_priority_fee_per_gas ∧
          wadd current_fee tx.req.max_priority_fee_per_gas ≤ tx.req.max_fee_per_gas) →
        repriceStep cfg current_fee now tx = (none, tx))) := by
  refine ⟨phase1_decisions_eq cfg current_fee now sub,
          phase1_states_eq cfg current_fee now sub, ?_, ?_⟩
  · intro hcool
    rw [repriceStep_eq, if_pos hcool]
  · intro hcool
    have hnc : ¬ now - tx.last_action_at < cfg.reprice_cooldown := Nat.not_lt.mpr hcool
    constructor
    · constructor
      · intro hcond
        rw [repriceStep_eq, if_neg hnc, if_pos hcond]
      · intro heq
        rw [repriceStep_eq, if_neg hnc] at heq
        by_contra hcond
        rw [if_neg hcond] at heq
        simp at heq
    · intro hcond
      rw [repriceStep_eq, if_neg hnc, if_neg hcond]

/-- Witness for `reprice_characterization`: spec scenario 2 — entry priced
52 at instant 0, fee 70, tip 2, cooldown 1000, instant 5000: the bump to 72
clears the floor 57 and the cap 100, so the Reprice fires; and at instant
500 the cooldown blocks it. -/
theorem reprice_characterization_witness :
    repriceStep cfgA 70 500 ⟨txA, 0, 52, 0⟩ = (none, ⟨txA, 0, 52, 0⟩) ∧
    repriceStep cfgA 70 5000 ⟨txA, 0, 52, 0⟩ =
      (some (SchedulerDecision.Reprice txA.id 0 (wadd 70 txA.max_priority_fee_per_gas)),
       ⟨txA, 0, wadd 70 txA.max_priority_fee_per_gas, 5000⟩) := by
  constructor
  · exact (reprice_characterization cfgA 70 500 [] ⟨txA, 0, 52, 0⟩).2.2.1 (by decide)
  · exact ((reprice_characterization cfgA 70 5000 [] ⟨txA, 0, 52, 0⟩).2.2.2
      (by decide)).1.mp (by decide)

/-- Every Submit of Phase 2 comes from a pending entry, is priced at
`current_fee + tip` (u64 addition), and outside spike mode passed the
`current_fee ≤ max_fee_per_gas` gate. -/
theorem phase2_submit_mem (current_fee : Nat) (is_spike trend_down : Bool) (now : Nat)
    (pend : List TransactionRequest) :
    ∀ (lim : RateLimiter) (nm : NonceManager) (sub : List SubmittedTx)
      (tx_id nonce gas_price : Nat),
      SchedulerDecision.Submit tx_id nonce gas_price ∈
        (phase2 current_fee is_spike trend_down now pend lim nm sub).decisions →
      ∃ tx, tx ∈ pend ∧ tx.id = tx_id ∧
        gas_price = wadd current_fee tx.max_priority_fee_per_gas ∧
        (is_spike = false → current_fee ≤ tx.max_fee_per_gas) := by
  induction pend with
  | nil =>
    intro lim nm sub tx_id nonce gas_price hmem
    simp [phase2] at hmem
  | cons tx rest ih =>
    intro lim nm sub tx_id nonce gas_price hmem
    cases hc : (lim.check_and_consume now).1 with
    | false =>
      simp [phase2, hc] at hmem
    | true =>
      by_cases hs : is_spike = true
      · rw [hs] at ih hmem ⊢
        simp only [phase2, hc, if_true, if_false] at hmem
        rcases List.mem_cons.mp hmem with heq | hmem
        · rcases SchedulerDecision.Submit.inj heq with ⟨h1, h2, h3⟩
          subst h1; subst h2; subst h3
          exact ⟨tx, List.mem_cons_self tx rest, rfl, rfl, by simp⟩
        · obtain ⟨t, ht, h1, h2, h3⟩ := ih _ _ _ _ _ _ hmem
          exact ⟨t, List.mem_cons_of_mem tx ht, h1, h2, h3⟩
      · rw [Bool.not_eq_true] at hs
        rw [hs] at ih hmem ⊢
        simp only [phase2, hc, if_true, if_false, Bool.false_eq_true] at hmem
        by_cases hcap : current_fee ≤ tx.max_fee_per_gas
        · rw [if_pos hcap] at hmem
          rcases List.mem_cons.mp hmem with heq | hmem
          · rcases SchedulerDecision.Submit.inj heq with ⟨h1, h2, h3⟩
            subst h1; subst h2; subst h3
            exact ⟨tx, List.mem_cons_self tx rest, rfl, rfl, fun _ => hcap⟩
          · obtain ⟨t, ht, h1, h2, h3⟩ := ih _ _ _ _ _ _ hmem
            exact ⟨t, List.mem_cons_of_mem tx ht, h1, h2, h3⟩
        · rw [if_neg hcap, ite_self] at hmem
          obtain ⟨t, ht, h1, h2, h3⟩ := ih _ _ _ _ _ _ hmem
          exact ⟨t, List.mem_cons_of_mem tx ht, h1, h2, h3⟩

/-- C2, confirmed. First conjunct: every Submit decision of a
re-evaluation pass prices the transaction at
`current_fee + max_priority_fee_per_gas` (u64 addition), and when
`is_spike` is false it derives from a passed
`current_fee ≤ max_fee_per_gas` gate, hence
`gas_price ≤ max_fee_per_gas + max_priority_fee_per_gas`. Second
conjunct: when `is_spike` is true, a considered pending entry (successful
limiter check) is submitted unconditionally — the spike arm of Phase 2 is
the literal Submit equation below, which imposes no condition whatsoever
on `max_fee_per_gas`, so the Submit is emitted even when
`current_fee > max_fee_per_gas` (as the witness exercises). -/
theorem submit_price_cap (cfg : SchedulerConfig) (is_spike trend_down : Bool)
    (now : Nat) (st : SchedulerState) :
    (∀ tx_id nonce gas_price : Nat,
      SchedulerDecision.Submit tx_id nonce gas_price ∈
        (re_evaluate cfg is_spike trend_down now st).2 →
      ∃ tx, tx ∈ st.pending ∧ tx.id = tx_id ∧
        gas_price = wadd st.model.current_fee tx.max_priority_fee_per_gas ∧
        (is_spike = false → st.model.current_fee ≤ tx.max_fee_per_gas ∧
          gas_price ≤ tx.max_fee_per_gas + tx.max_priority_fee_per_gas)) ∧
    (∀ (current_fee : Nat) (tx : TransactionRequest) (rest : List TransactionRequest)
       (lim : RateLimiter) (nm : NonceManager) (sub : List SubmittedTx),
      (lim.check_and_consume now).1 = true →
      (phase2 current_fee true trend_down now (tx :: rest) lim nm sub).decisions =
        SchedulerDecision.Submit tx.id (nm.next_nonce tx.«from»).1
            (wadd current_fee tx.max_priority_fee_per_gas) ::
          (phase2 current_fee true trend_down now rest (lim.check_and_consume now).2
            (nm.next_nonce tx.«from»).2
            (insertSubmitted ⟨tx, (nm.next_nonce tx.«from»).1,
               wadd current_fee tx.max_priority_fee_per_gas, now⟩ sub)).decisions) := by
  constructor
  · intro tx_id nonce gas_price hmem
    simp only [re_evaluate] at hmem
    rcases List.mem_append.mp hmem with h | h
    · obtain ⟨s, _, heq⟩ := phase1_mem_decisions _ _ _ _ _ h
      exact absurd heq (by simp)
    · obtain ⟨tx, htx, h1, h2, h3⟩ :=
        phase2_submit_mem _ is_spike trend_down now (sortPending st.pending)
          _ _ _ _ _ _ h
      refine ⟨tx, ?_, h1, h2, fun hsp => ⟨h3 hsp, ?_⟩⟩
      · exact (List.perm_insertionSort byId st.pending).mem_iff.mp htx
      · rw [h2]
        exact le_trans (Nat.mod_le _ _) (Nat.add_le_add_right (h3 hsp) _)
  · intro current_fee tx rest lim nm sub hc
    simp only [phase2, hc, Bool.true_eq_false, if_true, if_false]

/-- Witness for `submit_price_cap`. Normal mode: spec scenario 1 — fee 50,
one pending transaction with cap 100 and tip 2 yields Submit at gas price
52. Spike mode: at fee 200 an entry whose cap 50 is far below the fee is
nonetheless submitted at 200 — the cap plays no role. -/
theorem submit_price_cap_witness :
    (∃ tx, tx ∈ (⟨[txA], [], RateLimiter.new 0 5, NonceManager.new,
        GasModel.update (GasModel.new 10) 50⟩ : SchedulerState).pending ∧
      tx.id = 1 ∧
      (52 : Nat) = wadd (GasModel.update (GasModel.new 10) 50).current_fee
        tx.max_priority_fee_per_gas ∧
      (false = false →
        (GasModel.update (GasModel.new 10) 50).current_fee ≤ tx.max_fee_per_gas ∧
        52 ≤ tx.max_fee_per_gas + tx.max_priority_fee_per_gas)) ∧
    ¬ (200 : Nat) ≤ txLowCap.max_fee_per_gas ∧
    (phase2 200 true false 0 [txLowCap] (RateLimiter.new 0 5) NonceManager.new
        []).decisions =
      SchedulerDecision.Submit txLowCap.id
          (NonceManager.new.next_nonce txLowCap.«from»).1
          (wadd 200 txLowCap.max_priority_fee_per_gas) ::
        (phase2 200 true false 0 [] ((RateLimiter.new 0 5).check_and_consume 0).2
          (NonceManager.new.next_nonce txLowCap.«from»).2
          (insertSubmitted ⟨txLowCap, (NonceManager.new.next_nonce txLowCap.«from»).1,
             wadd 200 txLowCap.max_priority_fee_per_gas, 0⟩ [])).decisions :=
  ⟨(submit_price_cap cfgA false false 0
      ⟨[txA], [], RateLimiter.new 0 5, NonceManager.new,
        GasModel.update (GasModel.new 10) 50⟩).1 1 0 52 (by decide),
   by decide,
   (submit_price_cap cfgA true false 0
      ⟨[], [], RateLimiter.new 0 5, NonceManager.new, GasModel.new 10⟩).2
     200 txLowCap [] (RateLimiter.new 0 5) NonceManager.new [] (by decide)⟩

/-- Counting Submit decisions through a cons. -/
theorem countSubmits_submit_cons (i n p : Nat) (ds : List SchedulerDecision) :
    countSubmits (SchedulerDecision.Submit i n p :: ds) = countSubmits ds + 1 := rfl

/-- With a rate-0 limiter (no refill possible), Phase 2 consumes exactly
one token per successful `check_and_consume` — the number of `true` checks
— and the number of Submits is at most that number. -/
theorem phase2_tokens_aux (current_fee : Nat) (is_spike trend_down : Bool) (now : Nat) :
    ∀ (pend : List TransactionRequest) (lim : RateLimiter) (nm : NonceManager)
      (sub : List SubmittedTx), lim.refill_rate = 0 →
      (lim.tokens =
        (phase2 current_fee is_spike trend_down now pend lim nm sub).limiter.tokens +
          (phase2 current_fee is_spike trend_down now pend lim nm sub).checks.count true ∧
       countSubmits (phase2 current_fee is_spike trend_down now pend lim nm sub).decisions ≤
        (phase2 current_fee is_spike trend_down now pend lim nm sub).checks.count true) := by
  intro pend
  induction pend with
  | nil => intro lim nm sub _; simp [phase2, countSubmits, submitPairs]
  | cons tx rest ih =>
    intro lim nm sub hrate
    have hid : lim.refill now = lim := lim.refill_rate_zero now hrate
    cases hc : (lim.check_and_consume now).1 with
    | false =>
      have hz : (lim.refill now).tokens = 0 := by
        rcases Nat.eq_zero_or_pos (lim.refill now).tokens with h | h
        · exact h
        · rw [lim.check_pos now (Nat.pos_iff_ne_zero.mp h)] at hc
          simp at hc
      have hcc := lim.check_zero now hz
      simp only [phase2]
      rw [hc, if_pos rfl, hcc]
      dsimp only
      constructor
      · rw [hid, List.count_cons_of_ne (by simp), List.count_nil]
        rw [hid] at hz
        omega
      · simp [countSubmits, submitPairs]
    | true =>
      have hz : (lim.refill now).tokens ≠ 0 := by
        intro h
        rw [lim.check_zero now h] at hc
        simp at hc
      have hcc := lim.check_pos now hz
      have htok : (lim.check_and_consume now).2.tokens = lim.tokens - 1 := by
        rw [hcc, hid]
      have hpos : lim.tokens ≠ 0 := by rw [hid] at hz; exact hz
      have hrate2 : (lim.check_and_consume now).2.refill_rate = 0 := by
        rw [hcc, hid]
        exact hrate
      simp only [phase2, hc]
      rw [if_neg (by simp)]
      by_cases hs : is_spike = true
      · rw [if_pos hs]
        obtain ⟨ihA, ihB⟩ := ih (lim.check_and_consume now).2 _ _ hrate2
        dsimp only
        rw [List.count_cons_self, countSubmits_submit_cons]
        constructor
        · rw [← Nat.add_assoc, ← ihA, htok]
          omega
        · omega
      · rw [if_neg hs]
        by_cases hcap : current_fee ≤ tx.max_fee_per_gas
        · rw [if_pos hcap]
          obtain ⟨ihA, ihB⟩ := ih (lim.check_and_consume now).2 _ _ hrate2
          dsimp only
          rw [List.count_cons_self, countSubmits_submit_cons]
          constructor
          · rw [← Nat.add_assoc, ← ihA, htok]
            omega
          · omega
        · rw [if_neg hcap, ite_self]
          obtain ⟨ihA, ihB⟩ := ih (lim.check_and_consume now).2 nm sub hrate2
          dsimp only
          rw [List.count_cons_self]
          constructor
          · rw [← Nat.add_assoc, ← ihA, htok]
            omega
          · omega

/-- C1, corrected. The rate limiter is consulted before the admission
decision is computed, so one token is consumed per pending entry
considered (per successful `check_and_consume`), not per admitted Submit:
an entry that is considered but deferred or left pending still consumes a
token. With no refill (rate 0) the tokens consumed in the pass equal the
number of successful checks, and the number of Submits is at most — not
equal to — that number. -/
theorem token_per_admission (current_fee : Nat) (is_spike trend_down : Bool)
    (now : Nat) (pend : List TransactionRequest) (lim : RateLimiter)
    (nm : NonceManager) (sub : List SubmittedTx) (hrate : lim.refill_rate = 0) :
    lim.tokens =
      (phase2 current_fee is_spike trend_down now pend lim nm sub).limiter.tokens +
        (phase2 current_fee is_spike trend_down now pend lim nm sub).checks.count true ∧
    countSubmits (phase2 current_fee is_spike trend_down now pend lim nm sub).decisions ≤
      (phase2 current_fee is_spike trend_down now pend lim nm sub).checks.count true :=
  phase2_tokens_aux current_fee is_spike trend_down now pend lim nm sub hrate

/-- Witness for `token_per_admission`: fee 100 over one admissible entry
(cap 100) and one inadmissible entry (cap 50): two tokens consumed, one
Submit. -/
theorem token_per_admission_witness :
    (RateLimiter.new 0 5).tokens =
      (phase2 100 false false 0 [txA, txLowCap] (RateLimiter.new 0 5)
        NonceManager.new []).limiter.tokens +
        (phase2 100 false false 0 [txA, txLowCap] (RateLimiter.new 0 5)
          NonceManager.new []).checks.count true ∧
    countSubmits (phase2 100 false false 0 [txA, txLowCap] (RateLimiter.new 0 5)
        NonceManager.new []).decisions ≤
      (phase2 100 false false 0 [txA, txLowCap] (RateLimiter.new 0 5)
        NonceManager.new []).checks.count true :=
  token_per_admission 100 false false 0 [txA, txLowCap] (RateLimiter.new 0 5)
    NonceManager.new [] rfl

/-- Counterexample to C1 as stated: at fee 100 a single pending entry with
cap 50 (not spiking) is considered but not admitted, yet the bucket drops
from 5 to 4 tokens — one token consumed, zero Submit decisions. -/
theorem token_per_admission_cex :
    (phase2 100 false false 0 [txLowCap] (RateLimiter.new 0 5)
      NonceManager.new []).limiter.tokens = 4 ∧
    (phase2 100 false false 0 [txLowCap] (RateLimiter.new 0 5)
      NonceManager.new []).decisions = [] ∧
    (phase2 100 false false 0 [txLowCap] (RateLimiter.new 0 5)
      NonceManager.new []).checks = [true] := by decide

/-- Submit ids through a Submit cons. -/
theorem submitIds_submit_cons (i n p : Nat) (ds : List SchedulerDecision) :
    submitIds (SchedulerDecision.Submit i n p :: ds) = i :: submitIds ds := rfl

/-- Structural facts about one Phase-2 pass: the admitted ids form a
sublist of the considered ids (order preserved), the retained pending list
is a sublist of the input, every input entry is either retained or
admitted, and the check trace is a block of `true`s optionally closed by a
single final `false` (the break). -/
theorem phase2_structure (current_fee : Nat) (is_spike trend_down : Bool) (now : Nat) :
    ∀ (pend : List TransactionRequest) (lim : RateLimiter) (nm : NonceManager)
      (sub : List SubmittedTx),
      (submitIds (phase2 current_fee is_spike trend_down now pend lim nm sub).decisions).Sublist
        (pend.map TransactionRequest.id) ∧
      ((phase2 current_fee is_spike trend_down now pend lim nm sub).pending).Sublist pend ∧
      (∀ tx ∈ pend,
        tx ∈ (phase2 current_fee is_spike trend_down now pend lim nm sub).pending ∨
        tx.id ∈ submitIds (phase2 current_fee is_spike trend_down now pend lim nm sub).decisions) ∧
      (∃ k, (phase2 current_fee is_spike trend_down now pend lim nm sub).checks =
              List.replicate k true ∨
            (phase2 current_fee is_spike trend_down now pend lim nm sub).checks =
              List.replicate k true ++ [false]) := by
  intro pend
  induction pend with
  | nil =>
    intro lim nm sub
    exact ⟨List.nil_sublist _, List.nil_sublist _, fun t ht => absurd ht (by simp),
           0, Or.inl rfl⟩
  | cons tx rest ih =>
    intro lim nm sub
    cases hc : (lim.check_and_consume now).1 with
    | false =>
      simp only [phase2]
      rw [hc, if_pos rfl]
      dsimp only
      exact ⟨List.nil_sublist _, List.Sublist.refl _, fun t ht => Or.inl ht,
             0, Or.inr rfl⟩
    | true =>
      simp only [phase2, hc]
      rw [if_neg (by simp)]
      by_cases hs : is_spike = true
      · rw [if_pos hs]
        have IH := ih (lim.check_and_consume now).2 (nm.next_nonce tx.«from»).2
          (insertSubmitted ⟨tx, (nm.next_nonce tx.«from»).1,
            wadd current_fee tx.max_priority_fee_per_gas, now⟩ sub)
        dsimp only
        refine ⟨?_, IH.2.1.cons tx, ?_, ?_⟩
        · rw [submitIds_submit_cons, List.map_cons]
          exact IH.1.cons₂ tx.id
        · intro t ht
          rcases List.mem_cons.mp ht with heq | htr
          · subst heq
            exact Or.inr (by rw [submitIds_submit_cons]; exact List.mem_cons_self _ _)
          · rcases IH.2.2.1 t htr with hl | hr
            · exact Or.inl hl
            · exact Or.inr (by rw [submitIds_submit_cons]; exact List.mem_cons_of_mem _ hr)
        · obtain ⟨k, hk⟩ := IH.2.2.2
          refine ⟨k + 1, ?_⟩
          rcases hk with hk | hk <;> rw [hk, List.replicate_succ]
          · exact Or.inl rfl
          · exact Or.inr rfl
      · rw [if_neg hs]
        by_cases hcap : current_fee ≤ tx.max_fee_per_gas
        · rw [if_pos hcap]
          have IH := ih (lim.check_and_consume now).2 (nm.next_nonce tx.«from»).2
            (insertSubmitted ⟨tx, (nm.next_nonce tx.«from»).1,
              wadd current_fee tx.max_priority_fee_per_gas, now⟩ sub)
          dsimp only
          refine ⟨?_, IH.2.1.cons tx, ?_, ?_⟩
          · rw [submitIds_submit_cons, List.map_cons]
            exact IH.1.cons₂ tx.id
          · intro t ht
            rcases List.mem_cons.mp ht with heq | htr
            · subst heq
              exact Or.inr (by rw [submitIds_submit_cons]; exact List.mem_cons_self _ _)
            · rcases IH.2.2.1 t htr with hl | hr
              · exact Or.inl hl
              · exact Or.inr (by rw [submitIds_submit_cons]; exact List.mem_cons_of_mem _ hr)
          · obtain ⟨k, hk⟩ := IH.2.2.2
            refine ⟨k + 1, ?_⟩
            rcases hk with hk | hk <;> rw [hk, List.replicate_succ]
            · exact Or.inl rfl
            · exact Or.inr rfl
        · rw [if_neg hcap, ite_self]
          have IH := ih (lim.check_and_consume now).2 nm sub
          dsimp only
          refine ⟨IH.1.cons tx.id, IH.2.1.cons₂ tx, ?_, ?_⟩
          · intro t ht
            rcases List.mem_cons.mp ht with heq | htr
            · subst heq
              exact Or.inl (List.mem_cons_self _ _)
            · rcases IH.2.2.1 t htr with hl | hr
              · exact Or.inl (List.mem_cons_of_mem _ hl)
              · exact Or.inr hr
          · obtain ⟨k, hk⟩ := IH.2.2.2
            refine ⟨k + 1, ?_⟩
            rcases hk with hk | hk <;> rw [hk, List.replicate_succ]
            · exact Or.inl rfl
            · exact Or.inr rfl

/-- A weakly sorted duplicate-free list of naturals is strictly sorted. -/
theorem sorted_lt_of_le_nodup (l : List Nat) (h1 : l.Sorted (· ≤ ·))
    (h2 : l.Nodup) : l.Sorted (· < ·) := by
  induction l with
  | nil => exact List.Pairwise.nil
  | cons a t ih =>
    rw [List.sorted_cons] at h1 ⊢
    rw [List.nodup_cons] at h2
    refine ⟨fun b hb => lt_of_le_of_ne (h1.1 b hb) ?_, ih h1.2 h2.2⟩
    intro heq
    exact h2.1 (by rw [heq]; exact hb)

/-- C6, confirmed. A re-evaluation pass considers the pending entries in
ascending id order (the sorted list Phase 2 receives is sorted by id), so
with unique ids the admitted ids come out strictly ascending; the check
trace is a block of successful checks optionally ended by one final
`false` — the first failed check ends Phase 2 — and the retained pending
list is a sublist of the considered list containing every entry that was
not admitted (whether considered-but-undecided or never reached). -/
theorem fifo_admission (current_fee : Nat) (is_spike trend_down : Bool) (now : Nat)
    (pend : List TransactionRequest) (lim : RateLimiter) (nm : NonceManager)
    (sub : List SubmittedTx)
    (hnodup : (pend.map TransactionRequest.id).Nodup) :
    List.Sorted byId (sortPending pend) ∧
    List.Sorted (· < ·) (submitIds (phase2 current_fee is_spike trend_down now
      (sortPending pend) lim nm sub).decisions) ∧
    ((phase2 current_fee is_spike trend_down now
      (sortPending pend) lim nm sub).pending).Sublist (sortPending pend) ∧
    (∀ tx ∈ sortPending pend,
      tx ∈ (phase2 current_fee is_spike trend_down now
        (sortPending pend) lim nm sub).pending ∨
      tx.id ∈ submitIds (phase2 current_fee is_spike trend_down now
        (sortPending pend) lim nm sub).decisions) ∧
    (∃ k, (phase2 current_fee is_spike trend_down now
            (sortPending pend) lim nm sub).checks = List.replicate k true ∨
          (phase2 current_fee is_spike trend_down now
            (sortPending pend) lim nm sub).checks = List.replicate k true ++ [false]) := by
  have hsorted : List.Sorted byId (sortPending pend) :=
    List.sorted_insertionSort byId pend
  have hperm : (sortPending pend).Perm pend := List.perm_insertionSort byId pend
  have hmapnodup : ((sortPending pend).map TransactionRequest.id).Nodup :=
    ((hperm.map TransactionRequest.id).nodup_iff).mpr hnodup
  have hmaple : ((sortPending pend).map TransactionRequest.id).Sorted (· ≤ ·) := by
    rw [List.Sorted, List.pairwise_map]
    exact hsorted
  have hmaplt : ((sortPending pend).map TransactionRequest.id).Sorted (· < ·) :=
    sorted_lt_of_le_nodup _ hmaple hmapnodup
  obtain ⟨hsub, hpend2, hmem, hchk⟩ :=
    phase2_structure current_fee is_spike trend_down now (sortPending pend) lim nm sub
  exact ⟨hsorted, List.Pairwise.sublist hsub hmaplt, hpend2, hmem, hchk⟩

/-- Witness for `fifo_admission`: three pending entries with ids 3, 1, 2
under a 2-token bucket — ids 1 and 2 are admitted in order and the third
check breaks the pass. -/
theorem fifo_admission_witness :
    List.Sorted byId (sortPending [⟨3, addr0, addr1, [], [], 100, 2, none⟩, ⟨1, addr0, addr1, [], [], 100, 2, none⟩, ⟨2, addr0, addr1, [], [], 100, 2, none⟩]) ∧
    List.Sorted (· < ·) (submitIds (phase2 50 false false 0 (sortPending [⟨3, addr0, addr1, [], [], 100, 2, none⟩, ⟨1, addr0, addr1, [], [], 100, 2, none⟩, ⟨2, addr0, addr1, [], [], 100, 2, none⟩]) (RateLimiter.new 0 2) NonceManager.new []).decisions) ∧
    ((phase2 50 false false 0 (sortPending [⟨3, addr0, addr1, [], [], 100, 2, none⟩, ⟨1, addr0, addr1, [], [], 100, 2, none⟩, ⟨2, addr0, addr1, [], [], 100, 2, none⟩]) (RateLimiter.new 0 2) NonceManager.new []).pending).Sublist (sortPending [⟨3, addr0, addr1, [], [], 100, 2, none⟩, ⟨1, addr0, addr1, [], [], 100, 2, none⟩, ⟨2, addr0, addr1, [], [], 100, 2, none⟩]) ∧
    (∀ tx ∈ (sortPending [⟨3, addr0, addr1, [], [], 100, 2, none⟩, ⟨1, addr0, addr1, [], [], 100, 2, none⟩, ⟨2, addr0, addr1, [], [], 100, 2, none⟩]),
      tx ∈ (phase2 50 false false 0 (sortPending [⟨3, addr0, addr1, [], [], 100, 2, none⟩, ⟨1, addr0, addr1, [], [], 100, 2, none⟩, ⟨2, addr0, addr1, [], [], 100, 2, none⟩]) (RateLimiter.new 0 2) NonceManager.new []).pending ∨
      tx.id ∈ submitIds (phase2 50 false false 0 (sortPending [⟨3, addr0, addr1, [], [], 100, 2, none⟩, ⟨1, addr0, addr1, [], [], 100, 2, none⟩, ⟨2, addr0, addr1, [], [], 100, 2, none⟩]) (RateLimiter.new 0 2) NonceManager.new []).decisions) ∧
    (∃ k, (phase2 50 false false 0 (sortPending [⟨3, addr0, addr1, [], [], 100, 2, none⟩, ⟨1, addr0, addr1, [], [], 100, 2, none⟩, ⟨2, addr0, addr1, [], [], 100, 2, none⟩]) (RateLimiter.new 0 2) NonceManager.new []).checks = List.replicate k true ∨
          (phase2 50 false false 0 (sortPending [⟨3, addr0, addr1, [], [], 100, 2, none⟩, ⟨1, addr0, addr1, [], [], 100, 2, none⟩, ⟨2, addr0, addr1, [], [], 100, 2, none⟩]) (RateLimiter.new 0 2) NonceManager.new []).checks = List.replicate k true ++ [false]) :=
  fifo_admission 50 false false 0
    [⟨3, addr0, addr1, [], [], 100, 2, none⟩, ⟨1, addr0, addr1, [], [], 100, 2, none⟩,
     ⟨2, addr0, addr1, [], [], 100, 2, none⟩]
    (RateLimiter.new 0 2) NonceManager.new [] (by decide)

/-- Unfolding equations for `wfNonce`. -/
theorem wfNonce_submit_cons (S : List (Nat × Nat)) (i n p : Nat)
    (ds : List SchedulerDecision) :
    wfNonce S (SchedulerDecision.Submit i n p :: ds) =
      (decide (∀ q ∈ S, q.1 ≠ i) && wfNonce ((i, n) :: S) ds) := rfl

/-- Unfolding equation for a Reprice head. -/
theorem wfNonce_reprice_cons (S : List (Nat × Nat)) (i n p : Nat)
    (ds : List SchedulerDecision) :
    wfNonce S (SchedulerDecision.Reprice i n p :: ds) =
      (decide ((i, n) ∈ S) && wfNonce S ds) := rfl

/-- The well-formedness predicate only looks at the accumulator as a set. -/
theorem wfNonce_congr (ds : List SchedulerDecision) :
    ∀ S T : List (Nat × Nat), (∀ p : Nat × Nat, p ∈ S ↔ p ∈ T) →
      wfNonce S ds = wfNonce T ds := by
  induction ds with
  | nil => intro S T _; rfl
  | cons d rest ih =>
    intro S T h
    cases d with
    | Submit i n p =>
      rw [wfNonce_submit_cons, wfNonce_submit_cons]
      have h1 : (∀ q ∈ S, q.1 ≠ i) ↔ (∀ q ∈ T, q.1 ≠ i) :=
        ⟨fun hq q hmem => hq q ((h q).mpr hmem), fun hq q hmem => hq q ((h q).mp hmem)⟩
      rw [decide_eq_decide.mpr h1]
      have h2 : ∀ q : Nat × Nat, q ∈ (i, n) :: S ↔ q ∈ (i, n) :: T := by
        intro q
        simp only [List.mem_cons]
        exact or_congr Iff.rfl (h q)
      rw [ih _ _ h2]
    | Reprice i n p =>
      rw [wfNonce_reprice_cons, wfNonce_reprice_cons,
        decide_eq_decide.mpr (h (i, n)), ih _ _ h]
    | Defer i r => exact ih _ _ h
    | Drop i r => exact ih _ _ h

/-- Submit pairs across an append. -/
theorem submitPairs_append (a b : List SchedulerDecision) :
    submitPairs (a ++ b) = submitPairs a ++ submitPairs b := by
  induction a with
  | nil => rfl
  | cons d rest ih => cases d <;> simp [submitPairs, ih]

/-- Well-formedness across an append: the tail is judged against the
accumulator extended by the Submit pairs of the head. -/
theorem wfNonce_append (a b : List SchedulerDecision) :
    ∀ S, wfNonce S (a ++ b) =
      (wfNonce S a && wfNonce ((submitPairs a).reverse ++ S) b) := by
  induction a with
  | nil => intro S; simp [wfNonce, submitPairs]
  | cons d rest ih =>
    intro S
    cases d with
    | Submit i n p =>
      rw [List.cons_append, wfNonce_submit_cons, wfNonce_submit_cons, ih ((i, n) :: S),
        Bool.and_assoc]
      have : (submitPairs (SchedulerDecision.Submit i n p :: rest)).reverse ++ S =
          (submitPairs rest).reverse ++ ((i, n) :: S) := by
        show ((i, n) :: submitPairs rest).reverse ++ S = _
        rw [List.reverse_cons, List.append_assoc]
        rfl
      rw [this]
    | Reprice i n p =>
      rw [List.cons_append, wfNonce_reprice_cons, wfNonce_reprice_cons, ih S,
        Bool.and_assoc]
      rfl
    | Defer i r => exact ih S
    | Drop i r => exact ih S

/-- A stream of Reprices whose pairs all lie in the accumulator is
well-formed. -/
theorem wfNonce_of_reprices (S : List (Nat × Nat)) :
    ∀ ds : List SchedulerDecision,
      (∀ d ∈ ds, ∃ i n p, d = SchedulerDecision.Reprice i n p ∧ (i, n) ∈ S) →
      wfNonce S ds = true := by
  intro ds
  induction ds with
  | nil => intro _; rfl
  | cons d rest ih =>
    intro h
    obtain ⟨i, n, p, hd, hmem⟩ := h d (List.mem_cons_self d rest)
    subst hd
    rw [wfNonce_reprice_cons]
    simp only [Bool.and_eq_true, decide_eq_true_eq]
    exact ⟨hmem, ih fun d2 hd2 => h d2 (List.mem_cons_of_mem _ hd2)⟩

/-- A stream of Reprices contributes no Submit pairs. -/
theorem submitPairs_of_reprices (ds : List SchedulerDecision)
    (h : ∀ d ∈ ds, ∃ i n p, d = SchedulerDecision.Reprice i n p) :
    submitPairs ds = [] := by
  induction ds with
  | nil => rfl
  | cons d rest ih =>
    obtain ⟨i, n, p, hd⟩ := h d (List.mem_cons_self d rest)
    subst hd
    exact ih fun d2 hd2 => h d2 (List.mem_cons_of_mem _ hd2)

/-- A reprice step never changes the request or the nonce of its entry. -/
theorem repriceStep_req_nonce (cfg : SchedulerConfig) (current_fee now : Nat)
    (tx : SubmittedTx) :
    ((repriceStep cfg current_fee now tx).2).req = tx.req ∧
    ((repriceStep cfg current_fee now tx).2).nonce = tx.nonce := by
  rw [repriceStep_eq]
  split_ifs <;> exact ⟨rfl, rfl⟩

/-- Phase 1 preserves the (request, nonce) frame of every submitted entry
pointwise. -/
theorem phase1_frame (cfg : SchedulerConfig) (current_fee now : Nat)
    (sub : List SubmittedTx) :
    (phase1 cfg current_fee now sub).2.map (fun s => (s.req, s.nonce)) =
      sub.map (fun s => (s.req, s.nonce)) := by
  rw [phase1_states_eq, List.map_map]
  refine List.map_congr_left ?_
  intro s _
  have h := repriceStep_req_nonce cfg current_fee now s
  simp only [Function.comp_apply, h.1, h.2]

/-- Phase 1 preserves the (id, nonce) pairs of the submitted map. -/
theorem phase1_subPairs (cfg : SchedulerConfig) (current_fee now : Nat)
    (sub : List SubmittedTx) :
    subPairs (phase1 cfg current_fee now sub).2 = subPairs sub := by
  have h := phase1_frame cfg current_fee now sub
  have e : ∀ l : List SubmittedTx,
      subPairs l = (l.map (fun s => (s.req, s.nonce))).map (fun q => (q.1.id, q.2)) := by
    intro l
    rw [List.map_map]
    rfl
  rw [e, e, h]

/-- Pairs across an append of submitted lists. -/
theorem subPairs_append (a b : List SubmittedTx) :
    subPairs (a ++ b) = subPairs a ++ subPairs b := List.map_append _ a b

/-- Ids are the first components of the pairs. -/
theorem subIds_eq_map_fst (sub : List SubmittedTx) :
    subIds sub = (subPairs sub).map Prod.fst := by
  rw [subPairs, List.map_map]
  rfl

/-- Inserting an entry whose id is fresh for the map appends it. -/
theorem insertSubmitted_fresh (s : SubmittedTx) :
    ∀ sub : List SubmittedTx, (∀ p ∈ subPairs sub, p.1 ≠ s.req.id) →
      insertSubmitted s sub = sub ++ [s] := by
  intro sub
  induction sub with
  | nil => intro _; rfl
  | cons t ts ih =>
    intro h
    have hne : t.req.id ≠ s.req.id :=
      h (t.req.id, t.nonce) (List.mem_cons_self _ _)
    simp only [insertSubmitted, if_neg hne, List.cons_append]
    rw [ih fun p hp => h p (List.mem_cons_of_mem _ hp)]

/-- Phase 2 under unique pending ids disjoint from the submitted map:
the decision stream is well-formed against the submitted pairs, existing
submitted records are untouched (the new records are appended, with pairs
exactly the Submit pairs of the stream), and no retained entry was
admitted. -/
theorem phase2_wf (current_fee : Nat) (is_spike trend_down : Bool) (now : Nat) :
    ∀ (pend : List TransactionRequest) (lim : RateLimiter) (nm : NonceManager)
      (sub : List SubmittedTx),
      (pend.map TransactionRequest.id).Nodup →
      (∀ i ∈ pend.map TransactionRequest.id, ∀ p ∈ subPairs sub, p.1 ≠ i) →
      (wfNonce (subPairs sub)
        (phase2 current_fee is_spike trend_down now pend lim nm sub).decisions = true ∧
       (∃ ne, (phase2 current_fee is_spike trend_down now pend lim nm sub).submitted =
          sub ++ ne ∧
          subPairs ne =
            submitPairs (phase2 current_fee is_spike trend_down now pend lim nm sub).decisions) ∧
       (∀ t ∈ (phase2 current_fee is_spike trend_down now pend lim nm sub).pending,
          t.id ∉ submitIds (phase2 current_fee is_spike trend_down now pend lim nm sub).decisions)) := by
  intro pend
  induction pend with
  | nil =>
    intro lim nm sub _ _
    exact ⟨rfl, ⟨[], by simp [phase2], rfl⟩, fun t ht => by simp [phase2] at ht ⊢⟩
  | cons tx rest ih =>
    intro lim nm sub hnodup hdisj
    have hfresh : ∀ p ∈ subPairs sub, p.1 ≠ tx.id :=
      hdisj tx.id (by simp)
    have hnodup2 : (rest.map TransactionRequest.id).Nodup :=
      (List.nodup_cons.mp (by simpa using hnodup)).2
    have htxrest : tx.id ∉ rest.map TransactionRequest.id :=
      (List.nodup_cons.mp (by simpa using hnodup)).1
    cases hc : (lim.check_and_consume now).1 with
    | false =>
      simp only [phase2]
      rw [hc, if_pos rfl]
      dsimp only
      exact ⟨rfl, ⟨[], by simp, rfl⟩, fun t _ => by simp [submitIds, submitPairs]⟩
    | true =>
      simp only [phase2, hc]
      rw [if_neg (by simp)]
      have main : ∀ gp : Nat,
          (wfNonce (subPairs sub)
            (SchedulerDecision.Submit tx.id (nm.next_nonce tx.«from»).1 gp ::
              (phase2 current_fee is_spike trend_down now rest
                (lim.check_and_consume now).2 (nm.next_nonce tx.«from»).2
                (insertSubmitted ⟨tx, (nm.next_nonce tx.«from»).1, gp, now⟩ sub)).decisions) = true ∧
           (∃ ne, (phase2 current_fee is_spike trend_down now rest
                (lim.check_and_consume now).2 (nm.next_nonce tx.«from»).2
                (insertSubmitted ⟨tx, (nm.next_nonce tx.«from»).1, gp, now⟩ sub)).submitted =
              sub ++ ne ∧
              subPairs ne = submitPairs
                (SchedulerDecision.Submit tx.id (nm.next_nonce tx.«from»).1 gp ::
                  (phase2 current_fee is_spike trend_down now rest
                    (lim.check_and_consume now).2 (nm.next_nonce tx.«from»).2
                    (insertSubmitted ⟨tx, (nm.next_nonce tx.«from»).1, gp, now⟩ sub)).decisions)) ∧
           (∀ t ∈ (phase2 current_fee is_spike trend_down now rest
                (lim.check_and_consume now).2 (nm.next_nonce tx.«from»).2
                (insertSubmitted ⟨tx, (nm.next_nonce tx.«from»).1, gp, now⟩ sub)).pending,
              t.id ∉ tx.id ::
                submitIds (phase2 current_fee is_spike trend_down now rest
                  (lim.check_and_consume now).2 (nm.next_nonce tx.«from»).2
                  (insertSubmitted ⟨tx, (nm.next_nonce tx.«from»).1, gp, now⟩ sub)).decisions)) := by
        intro gp
        have heq : insertSubmitted ⟨tx, (nm.next_nonce tx.«from»).1, gp, now⟩ sub =
            sub ++ [⟨tx, (nm.next_nonce tx.«from»).1, gp, now⟩] :=
          insertSubmitted_fresh _ sub hfresh
        have hpairs2 : subPairs (insertSubmitted ⟨tx, (nm.next_nonce tx.«from»).1, gp, now⟩ sub) =
            subPairs sub ++ [(tx.id, (nm.next_nonce tx.«from»).1)] := by
          rw [heq, subPairs_append]
          rfl
        have hdisj2 : ∀ i ∈ rest.map TransactionRequest.id,
            ∀ p ∈ subPairs (insertSubmitted ⟨tx, (nm.next_nonce tx.«from»).1, gp, now⟩ sub),
              p.1 ≠ i := by
          intro i hi p hp
          rw [hpairs2] at hp
          rcases List.mem_append.mp hp with hp | hp
          · exact hdisj i (List.mem_cons_of_mem _ hi) p hp
          · rcases List.mem_singleton.mp hp with rfl
            intro hcontra
            rw [← hcontra] at hi
            exact htxrest hi
        obtain ⟨ihA, ⟨ne, hne1, hne2⟩, ihE⟩ :=
          ih (lim.check_and_consume now).2 (nm.next_nonce tx.«from»).2
            (insertSubmitted ⟨tx, (nm.next_nonce tx.«from»).1, gp, now⟩ sub) hnodup2 hdisj2
        refine ⟨?_, ?_, ?_⟩
        · rw [wfNonce_submit_cons]
          simp only [Bool.and_eq_true, decide_eq_true_eq]
          refine ⟨hfresh, ?_⟩
          rw [wfNonce_congr _ ((tx.id, (nm.next_nonce tx.«from»).1) :: subPairs sub)
            (subPairs sub ++ [(tx.id, (nm.next_nonce tx.«from»).1)]) (by intro p; simp; tauto)]
          rw [← hpairs2]
          exact ihA
        · refine ⟨⟨tx, (nm.next_nonce tx.«from»).1, gp, now⟩ :: ne, ?_, ?_⟩
          · rw [hne1, heq, List.append_assoc]
            rfl
          · show (tx.id, (nm.next_nonce tx.«from»).1) :: subPairs ne = _
            rw [hne2]
            rfl
        · intro t ht
          have htrest : t ∈ rest :=
            (phase2_structure current_fee is_spike trend_down now rest
              (lim.check_and_consume now).2 (nm.next_nonce tx.«from»).2
              (insertSubmitted ⟨tx, (nm.next_nonce tx.«from»).1, gp, now⟩ sub)).2.1.subset ht
          simp only [List.mem_cons, not_or]
          constructor
          · intro hcontra
            exact htxrest (hcontra ▸ List.mem_map_of_mem TransactionRequest.id htrest)
          · exact ihE t ht
      by_cases hs : is_spike = true
      · rw [if_pos hs]
        exact main (wadd current_fee tx.max_priority_fee_per_gas)
      · rw [if_neg hs]
        by_cases hcap : current_fee ≤ tx.max_fee_per_gas
        · rw [if_pos hcap]
          exact main (wadd current_fee tx.max_priority_fee_per_gas)
        · rw [if_neg hcap, ite_self]
          have hdisj3 : ∀ i ∈ rest.map TransactionRequest.id,
              ∀ p ∈ subPairs sub, p.1 ≠ i :=
            fun i hi => hdisj i (List.mem_cons_of_mem _ hi)
          obtain ⟨ihA, ihB, ihE⟩ :=
            ih (lim.check_and_consume now).2 nm sub hnodup2 hdisj3
          refine ⟨ihA, ihB, ?_⟩
          intro t ht
          rcases List.mem_cons.mp ht with rfl | ht2
          · intro hcontra
            have hsubl := (phase2_structure current_fee is_spike trend_down now rest
              (lim.check_and_consume now).2 nm sub).1
            exact htxrest (hsubl.subset hcontra)
          · exact ihE t ht2

/-- Branch-free unfolding of a re-evaluation pass. -/
theorem re_evaluate_eq (cfg : SchedulerConfig) (sp td : Bool) (now : Nat)
    (st : SchedulerState) :
    re_evaluate cfg sp td now st =
      (⟨(phase2 st.model.current_fee sp td now (sortPending st.pending) st.limiter
          st.nonces (phase1 cfg st.model.current_fee now st.submitted).2).pending,
        (phase2 st.model.current_fee sp td now (sortPending st.pending) st.limiter
          st.nonces (phase1 cfg st.model.current_fee now st.submitted).2).submitted,
        (phase2 st.model.current_fee sp td now (sortPending st.pending) st.limiter
          st.nonces (phase1 cfg st.model.current_fee now st.submitted).2).limiter,
        (phase2 st.model.current_fee sp td now (sortPending st.pending) st.limiter
          st.nonces (phase1 cfg st.model.current_fee now st.submitted).2).nonces,
        st.model⟩,
       (phase1 cfg st.model.current_fee now st.submitted).1 ++
        (phase2 st.model.current_fee sp td now (sortPending st.pending) st.limiter
          st.nonces (phase1 cfg st.model.current_fee now st.submitted).2).decisions) := rfl

/-- One re-evaluation pass on a state with globally unique ids: the pass
decisions are well-formed against the submitted pairs, the submitted pairs
grow by exactly the pass's Submit pairs, all ids shrink into the prior id
set, and uniqueness is preserved. -/
theorem re_evaluate_wf (cfg : SchedulerConfig) (sp td : Bool) (now : Nat)
    (st : SchedulerState) (hnodup : st.allIds.Nodup) :
    wfNonce (subPairs st.submitted) (re_evaluate cfg sp td now st).2 = true ∧
    subPairs ((re_evaluate cfg sp td now st).1).submitted =
      subPairs st.submitted ++ submitPairs (re_evaluate cfg sp td now st).2 ∧
    (∀ i ∈ ((re_evaluate cfg sp td now st).1).allIds, i ∈ st.allIds) ∧
    (((re_evaluate cfg sp td now st).1).allIds).Nodup := by
  obtain ⟨hpendnd, hsubnd, hdisj0⟩ :=
    List.nodup_append.mp (by simpa [SchedulerState.allIds] using hnodup)
  have hperm : (sortPending st.pending).Perm st.pending :=
    List.perm_insertionSort byId st.pending
  have hpermids : ((sortPending st.pending).map TransactionRequest.id).Perm
      (st.pending.map TransactionRequest.id) := hperm.map _
  have hsortnd : ((sortPending st.pending).map TransactionRequest.id).Nodup :=
    hpermids.nodup_iff.mpr hpendnd
  have hdisj1 : ∀ i ∈ (sortPending st.pending).map TransactionRequest.id,
      ∀ p ∈ subPairs (phase1 cfg st.model.current_fee now st.submitted).2, p.1 ≠ i := by
    intro i hi p hp
    rw [phase1_subPairs] at hp
    have hfst : p.1 ∈ subIds st.submitted := by
      rw [subIds_eq_map_fst]
      exact List.mem_map_of_mem Prod.fst hp
    intro hcontra
    exact hdisj0 (hpermids.mem_iff.mp (hcontra ▸ hi)) hfst
  obtain ⟨hwf2, ⟨ne, hne1, hne2⟩, hret⟩ :=
    phase2_wf st.model.current_fee sp td now (sortPending st.pending) st.limiter
      st.nonces (phase1 cfg st.model.current_fee now st.submitted).2 hsortnd hdisj1
  have hall1 : ∀ d ∈ (phase1 cfg st.model.current_fee now st.submitted).1,
      ∃ i n p, d = SchedulerDecision.Reprice i n p ∧ (i, n) ∈ subPairs st.submitted := by
    intro d hd
    obtain ⟨s, hs, hds⟩ := phase1_mem_decisions cfg st.model.current_fee now st.submitted d hd
    exact ⟨s.req.id, s.nonce, wadd st.model.current_fee s.req.max_priority_fee_per_gas,
      hds, List.mem_map_of_mem _ hs⟩
  have hwf1 : wfNonce (subPairs st.submitted)
      (phase1 cfg st.model.current_fee now st.submitted).1 = true :=
    wfNonce_of_reprices _ _ hall1
  have hsp1 : submitPairs (phase1 cfg st.model.current_fee now st.submitted).1 = [] :=
    submitPairs_of_reprices _ fun d hd =>
      let ⟨i, n, p, hd2, _⟩ := hall1 d hd
      ⟨i, n, p, hd2⟩
  have hpairs2 : subPairs (phase2 st.model.current_fee sp td now (sortPending st.pending)
      st.limiter st.nonces (phase1 cfg st.model.current_fee now st.submitted).2).submitted =
      subPairs st.submitted ++ submitPairs (phase2 st.model.current_fee sp td now
        (sortPending st.pending) st.limiter st.nonces
        (phase1 cfg st.model.current_fee now st.submitted).2).decisions := by
    rw [hne1, subPairs_append, phase1_subPairs, hne2]
  obtain ⟨hsubl2, hpend2, hmem2, _⟩ :=
    phase2_structure st.model.current_fee sp td now (sortPending st.pending) st.limiter
      st.nonces (phase1 cfg st.model.current_fee now st.submitted).2
  have hsubids2 : subIds (phase2 st.model.current_fee sp td now (sortPending st.pending)
      st.limiter st.nonces (phase1 cfg st.model.current_fee now st.submitted).2).submitted =
      subIds st.submitted ++ submitIds (phase2 st.model.current_fee sp td now
        (sortPending st.pending) st.limiter st.nonces
        (phase1 cfg st.model.current_fee now st.submitted).2).decisions := by
    rw [subIds_eq_map_fst, hpairs2, List.map_append, ← subIds_eq_map_fst]
    rfl
  refine ⟨?_, ?_, ?_, ?_⟩
  · rw [re_evaluate_eq]
    dsimp only
    rw [wfNonce_append, hsp1, List.reverse_nil, List.nil_append, hwf1,
      Bool.true_and, ← phase1_subPairs cfg st.model.current_fee now st.submitted]
    exact hwf2
  · rw [re_evaluate_eq]
    dsimp only
    rw [hpairs2, submitPairs_append, hsp1, List.nil_append]
  · rw [re_evaluate_eq]
    intro i hi
    simp only [SchedulerState.allIds] at hi ⊢
    rcases List.mem_append.mp hi with hi | hi
    · obtain ⟨t, ht, rfl⟩ := List.mem_map.mp hi
      exact List.mem_append.mpr (Or.inl
        (hpermids.mem_iff.mp (List.mem_map_of_mem _ (hpend2.subset ht))))
    · rw [hsubids2] at hi
      rcases List.mem_append.mp hi with hi | hi
      · exact List.mem_append.mpr (Or.inr hi)
      · exact List.mem_append.mpr (Or.inl (hpermids.mem_iff.mp (hsubl2.subset hi)))
  · rw [re_evaluate_eq]
    simp only [SchedulerState.allIds]
    rw [hsubids2]
    have hA : ((phase2 st.model.current_fee sp td now (sortPending st.pending) st.limiter
        st.nonces (phase1 cfg st.model.current_fee now st.submitted).2).pending.map
          TransactionRequest.id).Nodup :=
      List.Nodup.sublist (hpend2.map TransactionRequest.id) hsortnd
    have hsubmnd : (submitIds (phase2 st.model.current_fee sp td now (sortPending st.pending)
        st.limiter st.nonces
        (phase1 cfg st.model.current_fee now st.submitted).2).decisions).Nodup :=
      List.Nodup.sublist hsubl2 hsortnd
    have hBdisj : (subIds st.submitted).Disjoint
        (submitIds (phase2 st.model.current_fee sp td now (sortPending st.pending)
          st.limiter st.nonces
          (phase1 cfg st.model.current_fee now st.submitted).2).decisions) := by
      intro i hi1 hi2
      exact hdisj0 (hpermids.mem_iff.mp (hsubl2.subset hi2)) hi1
    have hB : ((subIds st.submitted) ++
        submitIds (phase2 st.model.current_fee sp td now (sortPending st.pending)
          st.limiter st.nonces
          (phase1 cfg st.model.current_fee now st.submitted).2).decisions).Nodup :=
      List.nodup_append.mpr ⟨hsubnd, hsubmnd, hBdisj⟩
    refine List.nodup_append.mpr ⟨hA, hB, ?_⟩
    intro i hi1 hi2
    obtain ⟨t, ht, rfl⟩ := List.mem_map.mp hi1
    rcases List.mem_append.mp hi2 with hi2 | hi2
    · exact hdisj0 (hpermids.mem_iff.mp
        (List.mem_map_of_mem _ (hpend2.subset ht))) hi2
    · exact hret t ht hi2

/-- Unfolding equation for one loop step. -/
theorem runScheduler_cons (cfg : SchedulerConfig) (st : SchedulerState)
    (e : SchedEvent) (es : List SchedEvent) :
    runScheduler cfg st (e :: es) =
      ((runScheduler cfg (handleEvent cfg st e).1 es).1,
       (handleEvent cfg st e).2 ++ (runScheduler cfg (handleEvent cfg st e).1 es).2) := rfl

/-- Unfolding equation for ignored gas events. -/
theorem handleEvent_gasOther (cfg : SchedulerConfig) (st : SchedulerState) :
    handleEvent cfg st SchedEvent.GasOther = (st, []) := rfl

/-- Unfolding equation for base-fee events. -/
theorem handleEvent_baseFee (cfg : SchedulerConfig) (st : SchedulerState)
    (fee : Nat) (sp td : Bool) (now : Nat) :
    handleEvent cfg st (SchedEvent.GasBaseFee fee sp td now) =
      re_evaluate cfg sp td now
        ⟨st.pending, st.submitted, st.limiter, st.nonces, st.model.update fee⟩ := rfl

/-- Unfolding equation for request events. -/
theorem handleEvent_txReq (cfg : SchedulerConfig) (st : SchedulerState)
    (req : TransactionRequest) (sp td : Bool) (now : Nat) :
    handleEvent cfg st (SchedEvent.TxRequest req sp td now) =
      re_evaluate cfg sp td now
        ⟨st.pending ++ [req], st.submitted, st.limiter, st.nonces, st.model⟩ := rfl

/-- Swapping the reversed new pairs to the back of the accumulator is a
set-level identity. -/
theorem wfNonce_rev_swap (ds : List SchedulerDecision)
    (a S : List (Nat × Nat)) :
    wfNonce (a.reverse ++ S) ds = wfNonce (S ++ a) ds := by
  refine wfNonce_congr ds _ _ ?_
  intro p
  simp only [List.mem_append, List.mem_reverse]
  exact Or.comm

/-- The whole scheduler run from a state with globally unique ids, fed
requests with fresh unique ids, emits a decision stream that is
well-formed against the initial submitted pairs. -/
theorem run_wf (cfg : SchedulerConfig) :
    ∀ (events : List SchedEvent) (st : SchedulerState),
      st.allIds.Nodup →
      (eventReqIds events).Nodup →
      (∀ i ∈ eventReqIds events, i ∉ st.allIds) →
      wfNonce (subPairs st.submitted) (runScheduler cfg st events).2 = true := by
  intro events
  induction events with
  | nil => intro st _ _ _; rfl
  | cons e es ih =>
    intro st hnd hend hfresh
    cases e with
    | GasOther =>
      rw [runScheduler_cons, handleEvent_gasOther]
      dsimp only
      rw [List.nil_append]
      exact ih st hnd hend hfresh
    | GasBaseFee fee sp2 td2 now2 =>
      rw [runScheduler_cons, handleEvent_baseFee]
      dsimp only
      have h1 : (⟨st.pending, st.submitted, st.limiter, st.nonces,
          st.model.update fee⟩ : SchedulerState).allIds = st.allIds := rfl
      obtain ⟨hwfp, hgrow, hshrink, hnd2⟩ :=
        re_evaluate_wf cfg sp2 td2 now2
          ⟨st.pending, st.submitted, st.limiter, st.nonces, st.model.update fee⟩
          (by rw [h1]; exact hnd)
      rw [wfNonce_append]
      simp only [Bool.and_eq_true]
      refine ⟨hwfp, ?_⟩
      rw [wfNonce_rev_swap]
      have hih := ih (re_evaluate cfg sp2 td2 now2
          ⟨st.pending, st.submitted, st.limiter, st.nonces, st.model.update fee⟩).1
        hnd2 hend ?_
      · rw [hgrow] at hih
        exact hih
      · intro i hi hcontra
        exact hfresh i hi (h1 ▸ hshrink i hcontra)
    | TxRequest req sp2 td2 now2 =>
      rw [runScheduler_cons, handleEvent_txReq]
      dsimp only
      have hends : eventReqIds (SchedEvent.TxRequest req sp2 td2 now2 :: es) =
          req.id :: eventReqIds es := rfl
      rw [hends] at hend hfresh
      obtain ⟨hreqes, hend2⟩ := List.nodup_cons.mp hend
      have hreqfresh : req.id ∉ st.allIds := hfresh req.id (List.mem_cons_self _ _)
      have hpermA : ((⟨st.pending ++ [req], st.submitted, st.limiter, st.nonces,
          st.model⟩ : SchedulerState).allIds).Perm (req.id :: st.allIds) := by
        simp only [SchedulerState.allIds, List.map_append, List.map_cons, List.map_nil,
          List.append_assoc, List.singleton_append]
        exact List.perm_middle
      have hnd1 : ((⟨st.pending ++ [req], st.submitted, st.limiter, st.nonces,
          st.model⟩ : SchedulerState).allIds).Nodup :=
        hpermA.nodup_iff.mpr (List.nodup_cons.mpr ⟨hreqfresh, hnd⟩)
      obtain ⟨hwfp, hgrow, hshrink, hnd2⟩ :=
        re_evaluate_wf cfg sp2 td2 now2
          ⟨st.pending ++ [req], st.submitted, st.limiter, st.nonces, st.model⟩ hnd1
      rw [wfNonce_append]
      simp only [Bool.and_eq_true]
      refine ⟨hwfp, ?_⟩
      rw [wfNonce_rev_swap]
      have hih := ih (re_evaluate cfg sp2 td2 now2
          ⟨st.pending ++ [req], st.submitted, st.limiter, st.nonces, st.model⟩).1
        hnd2 hend2 ?_
      · rw [hgrow] at hih
        exact hih
      · intro i hi hcontra
        have hin1 := hshrink i hcontra
        rcases List.mem_cons.mp (hpermA.mem_iff.mp hin1) with rfl | hin2
        · exact hreqes hi
        · exact hfresh i (List.mem_cons_of_mem _ hi) hin2

/-- After an id has entered the accumulator, a well-formed stream contains
no further Submit for it. -/
theorem wfNonce_submit_count_zero (ds : List SchedulerDecision) :
    ∀ S : List (Nat × Nat), wfNonce S ds = true → ∀ i : Nat,
      (∃ p ∈ S, p.1 = i) → ds.countP (isSubmitFor i) = 0 := by
  induction ds with
  | nil => intro S _ i _; rfl
  | cons d rest ih =>
    intro S hwf i hex
    cases d with
    | Submit j nj gp =>
      rw [wfNonce_submit_cons] at hwf
      simp only [Bool.and_eq_true, decide_eq_true_eq] at hwf
      obtain ⟨p, hp, hpi⟩ := hex
      have hji : j ≠ i := by
        intro hcontra
        exact hwf.1 p hp (by rw [hpi, hcontra])
      rw [List.countP_cons]
      have hfalse : isSubmitFor i (SchedulerDecision.Submit j nj gp) = false := by
        simp [isSubmitFor, hji]
      rw [hfalse]
      simp only [Bool.false_eq_true, if_false, Nat.add_zero]
      exact ih ((j, nj) :: S) hwf.2 i ⟨p, List.mem_cons_of_mem _ hp, hpi⟩
    | Reprice j nj gp =>
      rw [wfNonce_reprice_cons] at hwf
      simp only [Bool.and_eq_true] at hwf
      rw [List.countP_cons]
      simp only [isSubmitFor, if_false, Nat.add_zero]
      exact ih S hwf.2 i hex
    | Defer j r =>
      rw [List.countP_cons]
      simp only [isSubmitFor, if_false, Nat.add_zero]
      exact ih S hwf i hex
    | Drop j r =>
      rw [List.countP_cons]
      simp only [isSubmitFor, if_false, Nat.add_zero]
      exact ih S hwf i hex

/-- A well-formed stream has at most one Submit per transaction id. -/
theorem wfNonce_submit_count_le (ds : List SchedulerDecision) :
    ∀ S : List (Nat × Nat), wfNonce S ds = true → ∀ i : Nat,
      ds.countP (isSubmitFor i) ≤ 1 := by
  induction ds with
  | nil => intro S _ i; exact Nat.zero_le 1
  | cons d rest ih =>
    intro S hwf i
    cases d with
    | Submit j nj gp =>
      rw [wfNonce_submit_cons] at hwf
      simp only [Bool.and_eq_true, decide_eq_true_eq] at hwf
      rw [List.countP_cons]
      by_cases hji : j = i
      · subst hji
        have h0 : rest.countP (isSubmitFor j) = 0 :=
          wfNonce_submit_count_zero rest ((j, nj) :: S) hwf.2 j
            ⟨(j, nj), List.mem_cons_self _ _, rfl⟩
        rw [h0]
        simp [isSubmitFor]
      · have hfalse : isSubmitFor i (SchedulerDecision.Submit j nj gp) = false := by
          simp [isSubmitFor, hji]
        rw [hfalse]
        simp only [Bool.false_eq_true, if_false, Nat.add_zero]
        exact ih ((j, nj) :: S) hwf.2 i
    | Reprice j nj gp =>
      rw [wfNonce_reprice_cons] at hwf
      simp only [Bool.and_eq_true] at hwf
      rw [List.countP_cons]
      simp only [isSubmitFor, if_false, Nat.add_zero]
      exact ih S hwf.2 i
    | Defer j r =>
      rw [List.countP_cons]
      simp only [isSubmitFor, if_false, Nat.add_zero]
      exact ih S hwf i
    | Drop j r =>
      rw [List.countP_cons]
      simp only [isSubmitFor, if_false, Nat.add_zero]
      exact ih S hwf i

/-- In a well-formed stream, every Reprice cites a pair already in the
accumulator or introduced by an earlier Submit of the same id and nonce. -/
theorem wfNonce_reprice_after (ds : List SchedulerDecision) :
    ∀ (S : List (Nat × Nat)) (k i n p : Nat), wfNonce S ds = true →
      ds.get? k = some (SchedulerDecision.Reprice i n p) →
      (i, n) ∈ S ∨ ∃ m, m < k ∧ ∃ q,
        ds.get? m = some (SchedulerDecision.Submit i n q) := by
  induction ds with
  | nil => intro S k i n p _ hk; simp at hk
  | cons d rest ih =>
    intro S k i n p hwf hk
    cases k with
    | zero =>
      rw [List.get?_cons_zero, Option.some.injEq] at hk
      subst hk
      rw [wfNonce_reprice_cons] at hwf
      simp only [Bool.and_eq_true, decide_eq_true_eq] at hwf
      exact Or.inl hwf.1
    | succ k2 =>
      rw [List.get?_cons_succ] at hk
      cases d with
      | Submit j nj gp =>
        rw [wfNonce_submit_cons] at hwf
        simp only [Bool.and_eq_true, decide_eq_true_eq] at hwf
        rcases ih ((j, nj) :: S) k2 i n p hwf.2 hk with hin | ⟨m, hm, q, hq⟩
        · rcases List.mem_cons.mp hin with heq | hin2
          · have h1 : j = i := (Prod.mk.injEq _ _ _ _).mp heq.symm |>.1
            have h2 : nj = n := (Prod.mk.injEq _ _ _ _).mp heq.symm |>.2
            subst h1; subst h2
            exact Or.inr ⟨0, Nat.succ_pos k2, gp, rfl⟩
          · exact Or.inl hin2
        · exact Or.inr ⟨m + 1, Nat.succ_lt_succ hm, q, by rw [List.get?_cons_succ]; exact hq⟩
      | Reprice j nj gp =>
        rw [wfNonce_reprice_cons] at hwf
        simp only [Bool.and_eq_true] at hwf
        rcases ih S k2 i n p hwf.2 hk with hin | ⟨m, hm, q, hq⟩
        · exact Or.inl hin
        · exact Or.inr ⟨m + 1, Nat.succ_lt_succ hm, q, by rw [List.get?_cons_succ]; exact hq⟩
      | Defer j r =>
        rcases ih S k2 i n p hwf hk with hin | ⟨m, hm, q, hq⟩
        · exact Or.inl hin
        · exact Or.inr ⟨m + 1, Nat.succ_lt_succ hm, q, by rw [List.get?_cons_succ]; exact hq⟩
      | Drop j r =>
        rcases ih S k2 i n p hwf hk with hin | ⟨m, hm, q, hq⟩
        · exact Or.inl hin
        · exact Or.inr ⟨m + 1, Nat.succ_lt_succ hm, q, by rw [List.get?_cons_succ]; exact hq⟩

/-- C7, confirmed. Assuming the incoming request ids are unique per
process, the decision stream of a whole scheduler run contains at most one
Submit per tx_id, and every Reprice for a tx_id occurs at a strictly later
position than that id's Submit (and cites its nonce). -/
theorem at_most_one_submit (cfg : SchedulerConfig) (mh rate mx : Nat)
    (events : List SchedEvent) (hids : (eventReqIds events).Nodup) :
    (∀ i : Nat,
      (runScheduler cfg (initState mh rate mx) events).2.countP (isSubmitFor i) ≤ 1) ∧
    (∀ k i n p : Nat,
      (runScheduler cfg (initState mh rate mx) events).2.get? k =
        some (SchedulerDecision.Reprice i n p) →
      ∃ m, m < k ∧ ∃ q,
        (runScheduler cfg (initState mh rate mx) events).2.get? m =
          some (SchedulerDecision.Submit i n q)) := by
  have hwf0 : wfNonce [] (runScheduler cfg (initState mh rate mx) events).2 = true :=
    run_wf cfg events (initState mh rate mx)
      (by simp [initState, SchedulerState.allIds, subIds]) hids
      (by intro i hi; simp [initState, SchedulerState.allIds, subIds])
  constructor
  · intro i
    exact wfNonce_submit_count_le _ [] hwf0 i
  · intro k i n p hk
    rcases wfNonce_reprice_after _ [] k i n p hwf0 hk with hin | h
    · simp at hin
    · exact h

/-- Witness for `at_most_one_submit`: a run that submits tx 1 at price 52
and later reprices it to 72 — the Submit count for id 1 is 1 and the
Reprice at position 1 is preceded by the Submit at position 0. -/
theorem at_most_one_submit_witness :
    (runScheduler cfgA (initState 10 1 5)
      [SchedEvent.GasBaseFee 50 false false 0, SchedEvent.TxRequest txA false false 0,
       SchedEvent.GasBaseFee 70 false false 5000]).2.countP (isSubmitFor 1) ≤ 1 ∧
    (∃ m, m < 1 ∧ ∃ q,
      (runScheduler cfgA (initState 10 1 5)
        [SchedEvent.GasBaseFee 50 false false 0, SchedEvent.TxRequest txA false false 0,
         SchedEvent.GasBaseFee 70 false false 5000]).2.get? m =
        some (SchedulerDecision.Submit 1 0 q)) :=
  ⟨(at_most_one_submit cfgA 10 1 5
      [SchedEvent.GasBaseFee 50 false false 0, SchedEvent.TxRequest txA false false 0,
       SchedEvent.GasBaseFee 70 false false 5000] (by decide)).1 1,
   (at_most_one_submit cfgA 10 1 5
      [SchedEvent.GasBaseFee 50 false false 0, SchedEvent.TxRequest txA false false 0,
       SchedEvent.GasBaseFee 70 false false 5000] (by decide)).2 1 1 0 72 (by decide)⟩

/-- C10, confirmed. Phase 1 (the only code that mutates a SubmittedTx)
preserves the `req` and `nonce` fields of every record pointwise, touching
only `last_gas_price` and `last_action_at`; Phase 2 never modifies an
existing record — under fresh ids it only appends new ones; consequently
over a whole run every Reprice for a tx_id reports old_nonce equal to the
nonce carried by that id's Submit decision. -/
theorem submitted_frame (cfg : SchedulerConfig) (current_fee now : Nat)
    (sub : List SubmittedTx) (is_spike trend_down : Bool)
    (pend : List TransactionRequest) (lim : RateLimiter) (nm : NonceManager)
    (mh rate mx : Nat) (events : List SchedEvent)
    (hpnd : (pend.map TransactionRequest.id).Nodup)
    (hdisj : ∀ i ∈ pend.map TransactionRequest.id, ∀ p ∈ subPairs sub, p.1 ≠ i)
    (hids : (eventReqIds events).Nodup) :
    ((phase1 cfg current_fee now sub).2.map (fun s => (s.req, s.nonce)) =
      sub.map (fun s => (s.req, s.nonce))) ∧
    (∃ ne, (phase2 current_fee is_spike trend_down now pend lim nm sub).submitted =
        sub ++ ne) ∧
    (∀ k i n p : Nat,
      (runScheduler cfg (initState mh rate mx) events).2.get? k =
        some (SchedulerDecision.Reprice i n p) →
      ∃ m, m < k ∧ ∃ q,
        (runScheduler cfg (initState mh rate mx) events).2.get? m =
          some (SchedulerDecision.Submit i n q)) := by
  refine ⟨phase1_frame cfg current_fee now sub, ?_, ?_⟩
  · obtain ⟨_, ⟨ne, hne, _⟩, _⟩ :=
      phase2_wf current_fee is_spike trend_down now pend lim nm sub hpnd hdisj
    exact ⟨ne, hne⟩
  · intro k i n p hk
    have hwf0 : wfNonce [] (runScheduler cfg (initState mh rate mx) events).2 = true :=
      run_wf cfg events (initState mh rate mx)
        (by simp [initState, SchedulerState.allIds, subIds]) hids
        (by intro i2 hi2; simp [initState, SchedulerState.allIds, subIds])
    rcases wfNonce_reprice_after _ [] k i n p hwf0 hk with hin | h
    · simp at hin
    · exact h

/-- Witness for `submitted_frame` on a one-entry submitted map, one fresh
pending request, and the Submit-then-Reprice run. -/
theorem submitted_frame_witness :
    ((phase1 cfgA 70 5000 [⟨txA, 0, 52, 0⟩]).2.map (fun s => (s.req, s.nonce)) =
      ([⟨txA, 0, 52, 0⟩] : List SubmittedTx).map (fun s => (s.req, s.nonce))) ∧
    (∃ ne, (phase2 70 false false 5000 [⟨2, addr0, addr1, [], [], 100, 2, none⟩]
        (RateLimiter.new 0 5) NonceManager.new [⟨txA, 0, 52, 0⟩]).submitted =
          [⟨txA, 0, 52, 0⟩] ++ ne) ∧
    (∃ m, m < 1 ∧ ∃ q,
      (runScheduler cfgA (initState 10 1 5)
        [SchedEvent.GasBaseFee 50 false false 0, SchedEvent.TxRequest txA false false 0,
         SchedEvent.GasBaseFee 70 false false 5000]).2.get? m =
        some (SchedulerDecision.Submit 1 0 q)) := by
  obtain ⟨h1, h2, h3⟩ := submitted_frame cfgA 70 5000 [⟨txA, 0, 52, 0⟩] false false
    [⟨2, addr0, addr1, [], [], 100, 2, none⟩] (RateLimiter.new 0 5) NonceManager.new
    10 1 5
    [SchedEvent.GasBaseFee 50 false false 0, SchedEvent.TxRequest txA false false 0,
     SchedEvent.GasBaseFee 70 false false 5000]
    (by decide) (by decide) (by decide)
  exact ⟨h1, h2, h3 1 1 0 72 (by decide)⟩
